import Mathlib

/-!
# Verification of the houdini-pathmanager specification

This development shallowly embeds the parts of the `houdini-pathmanager`
repository that the specification's claims are about, and settles each claim
against the embedding.

Conventions of the embedding:

* Python strings are `List Char` (or `String` at API boundaries); the file
  system is a list of existing file path strings.
* The chained `re.sub` calls of `pathmanager/utils.py::find_files` are
  embedded as left-to-right scans over the character list, one scan per
  `re.sub` call, applied in the source order.  Each scan replaces a match
  and continues after the inserted replacement, exactly as `re.sub` does.
* The regular-expression patterns that `find_files` derives are interpreted
  by a small matcher (`reAtomsMatch`) over the regex fragment those derived
  patterns can contain: literal characters, `.`, the inserted digit groups
  `(1\d{3})`, `(\d{n})` and `(\d+)`, the bare class `\d`, non-alphanumeric
  backslash escapes, and a literal character followed by `*`.  Patterns
  outside this fragment make `reParse` return `none`, which the `find_files`
  embedding treats like `re.error`.  `\d` is modelled as the ASCII digits and
  `.` as any character other than a newline, matching Python's behaviour on
  the inputs considered here.  Matching is anchored at the start only, like
  `re.Pattern.match`.
* Glob matching is modelled at the level of a single path string: `*` matches
  any (possibly empty) run of characters that contains no `/`, `?` matches a
  single non-`/` character, and every other pattern character matches itself.
* Scanning functions carry a fuel argument equal to the input length where
  the recursion is not structural; the fuel is always sufficient because
  every step consumes at least one character.
-/

namespace PathManager

/-! ## Decimal digit strings and the executable string order -/

/-- The ASCII decimal digits, the model of Python's `\d` on the paths and
files considered here. -/
def isDigitCh (c : Char) : Bool := c.isDigit

/-- Decimal digit characters of `n`, most significant first: the model of
Python's `str`/format rendering of a non-negative integer.  The fuel
argument drives the recursion; `natChars` supplies enough. -/
def natCharsF : Nat → Nat → List Char
  | 0, n => [Char.ofNat ('0'.toNat + n % 10)]
  | fuel + 1, n =>
    if n < 10 then [Char.ofNat ('0'.toNat + n)]
    else natCharsF fuel (n / 10) ++ [Char.ofNat ('0'.toNat + n % 10)]

def natChars (n : Nat) : List Char := natCharsF n n

/-- Lexicographic comparison of two character lists by code point, the
model of Python's `<` on strings. -/
def charsLt : List Char → List Char → Bool
  | [], [] => false
  | [], _ :: _ => true
  | _ :: _, [] => false
  | a :: as, b :: bs => if a < b then true else if b < a then false else charsLt as bs

/-- Python's `<=` on strings, executable. -/
def pyLe (a b : String) : Bool := !(charsLt b.toList a.toList)

/-- Numeric value of a string of decimal digit characters, the model of
Python's `int` on a digit string. -/
def digitsVal (ds : List Char) : Nat :=
  ds.foldl (fun a c => a * 10 + (c.toNat - '0'.toNat)) 0

theorem dropWhile_length_le {α : Type} (p : α → Bool) (l : List α) :
    (l.dropWhile p).length ≤ l.length := by
  induction l with
  | nil => simp [List.dropWhile]
  | cons a l ih =>
    rw [List.dropWhile_cons]
    split
    · exact Nat.le_succ_of_le ih
    · simp

/-! ## `find_files` (src/pathmanager/utils.py): the regex-pattern chain

`find_files` derives its regex pattern by six chained `re.sub` calls.  Note
that the second call's pattern is `%(UDIM)d`, in which `(UDIM)` is a group,
so the text it actually matches is the literal `%UDIMd`. -/

/-- The replacement text `(1\d{3})` inserted for UDIM tokens. -/
def udimRepl : List Char := ['(', '1', '\\', 'd', '{', '3', '}', ')']

/-- The replacement text `(\d{n})` for a digit-count `ds` (as digit chars). -/
def digitGroup (ds : List Char) : List Char :=
  '(' :: '\\' :: 'd' :: '{' :: (ds ++ ['}', ')'])

/-- The replacement text `(\d+)` inserted for a bare `$F` token. -/
def plusGroup : List Char := ['(', '\\', 'd', '+', ')']

/-- `re.sub(r'<UDIM>', r'(1\\d{3})', path)`. -/
def subUdimRe : List Char → List Char
  | '<' :: 'U' :: 'D' :: 'I' :: 'M' :: '>' :: rest => udimRepl ++ subUdimRe rest
  | c :: rest => c :: subUdimRe rest
  | [] => []

/-- `re.sub(r'%(UDIM)d', r'(1\\d{3})', ...)`: the pattern's `(UDIM)` is a
group, so this replaces occurrences of the literal text `%UDIMd`. -/
def subPctUdimRe : List Char → List Char
  | '%' :: 'U' :: 'D' :: 'I' :: 'M' :: 'd' :: rest => udimRepl ++ subPctUdimRe rest
  | c :: rest => c :: subPctUdimRe rest
  | [] => []

/-- `re.sub(r'%0(\d)d', lambda m: f'(\d{{{m.group(1)}}})', ...)`. -/
def subPct0Re : List Char → List Char
  | '%' :: '0' :: c :: 'd' :: rest =>
      if isDigitCh c then digitGroup [c] ++ subPct0Re rest
      else '%' :: subPct0Re ('0' :: c :: 'd' :: rest)
  | c :: rest => c :: subPct0Re rest
  | [] => []
termination_by l => l.length
decreasing_by all_goals simp_arith

/-- `re.sub(r'#+', lambda m: f'(\d{{{len(m.group())}}})', ...)`: a maximal
run of `k` hash characters becomes `(\d{k})`. -/
def subHashRe : List Char → List Char
  | '#' :: rest =>
      digitGroup (natChars ((rest.takeWhile (· == '#')).length + 1))
        ++ subHashRe (rest.dropWhile (· == '#'))
  | c :: rest => c :: subHashRe rest
  | [] => []
termination_by l => l.length
decreasing_by
  · exact Nat.lt_succ_of_le (dropWhile_length_le _ _)
  · simp_arith

/-- `re.sub(r'\$F(\d)', lambda m: f'(\d{{{m.group(1)}}})', ...)`. -/
def subFDigRe : List Char → List Char
  | '$' :: 'F' :: c :: rest =>
      if isDigitCh c then digitGroup [c] ++ subFDigRe rest
      else '$' :: subFDigRe ('F' :: c :: rest)
  | c :: rest => c :: subFDigRe rest
  | [] => []
termination_by l => l.length
decreasing_by all_goals simp_arith

/-- `re.sub(r'\$F', lambda m: f'(\d+)', ...)`. -/
def subFRe : List Char → List Char
  | '$' :: 'F' :: rest => plusGroup ++ subFRe rest
  | c :: rest => c :: subFRe rest
  | [] => []

/-- The full regex-pattern derivation of `find_files`: the six `re.sub`
calls applied in source order. -/
def rePatternSubs (p : List Char) : List Char :=
  subFRe (subFDigRe (subHashRe (subPct0Re (subPctUdimRe (subUdimRe p)))))

/-! ## `find_files`: the glob-pattern chain -/

/-- `re.sub(r'<UDIM>', '*', path)`. -/
def subUdimGlob : List Char → List Char
  | '<' :: 'U' :: 'D' :: 'I' :: 'M' :: '>' :: rest => '*' :: subUdimGlob rest
  | c :: rest => c :: subUdimGlob rest
  | [] => []

/-- `re.sub(r'\$F\d?', '*', ...)`. -/
def subFGlob : List Char → List Char
  | '$' :: 'F' :: c :: rest =>
      if isDigitCh c then '*' :: subFGlob rest else '*' :: subFGlob (c :: rest)
  | ['$', 'F'] => ['*']
  | c :: rest => c :: subFGlob rest
  | [] => []
termination_by l => l.length
decreasing_by all_goals simp_arith

/-- `re.sub(r'#+', '*', ...)`. -/
def subHashGlob : List Char → List Char
  | '#' :: rest => '*' :: subHashGlob (rest.dropWhile (· == '#'))
  | c :: rest => c :: subHashGlob rest
  | [] => []
termination_by l => l.length
decreasing_by
  · exact Nat.lt_succ_of_le (dropWhile_length_le _ _)
  · simp_arith

/-- `re.sub(r'%0\dd', '*', ...)`. -/
def subPct0Glob : List Char → List Char
  | '%' :: '0' :: c :: 'd' :: rest =>
      if isDigitCh c then '*' :: subPct0Glob rest
      else '%' :: subPct0Glob ('0' :: c :: 'd' :: rest)
  | c :: rest => c :: subPct0Glob rest
  | [] => []
termination_by l => l.length
decreasing_by all_goals simp_arith

/-- The full glob-pattern derivation of `find_files`: the four `re.sub`
calls applied in source order. -/
def globPatternSubs (p : List Char) : List Char :=
  subPct0Glob (subHashGlob (subFGlob (subUdimGlob p)))

/-! ## Matching the derived patterns -/

/-- One matching unit of a derived regex pattern. -/
inductive RAtom where
  | lit (c : Char)
  | anyc
  | digits (n : Nat)
  | digitsPlus
  | star (c : Char)
  deriving DecidableEq, Repr

/-- Characters that have a regex meaning of their own and are therefore not
parsed as plain literals by `reParse`. -/
def isMetaCh (c : Char) : Bool :=
  c == '(' || c == ')' || c == '[' || c == ']' || c == '{' || c == '}' ||
  c == '*' || c == '+' || c == '?' || c == '|' || c == '^' || c == '$' ||
  c == '\\' || c == '.'

/-- Reads the `n})` tail of an inserted digit group: a nonempty digit run,
then `})`. -/
def groupTail (rest : List Char) : Option (Nat × List Char) :=
  match rest.takeWhile isDigitCh, rest.dropWhile isDigitCh with
  | [], _ => none
  | ds, '}' :: ')' :: rest2 => some (digitsVal ds, rest2)
  | _, _ => none

theorem groupTail_length {rest rest2 : List Char} {n : Nat}
    (h : groupTail rest = some (n, rest2)) : rest2.length ≤ rest.length := by
  have hd : (rest.dropWhile isDigitCh).length ≤ rest.length :=
    dropWhile_length_le _ _
  unfold groupTail at h
  split at h
  · exact absurd h (by simp)
  · rename_i ds tail heq
    rw [tail] at hd
    simp only [Option.some.injEq, Prod.mk.injEq] at h
    obtain ⟨-, rfl⟩ := h
    simp only [List.length_cons] at hd
    omega
  · exact absurd h (by simp)

/-- Parses a derived regex pattern string into matching units; `none` models
both `re.error` and regex constructs outside the modelled fragment.  The
fuel argument only drives the recursion; `reParse` supplies enough fuel for
the whole input. -/
def reParseF : Nat → List Char → Option (List RAtom)
  | _, [] => some []
  | 0, _ :: _ => none
  | fuel + 1, c :: rest =>
    if c == '(' then
      match rest with
      | '1' :: '\\' :: 'd' :: '{' :: r =>
          match groupTail r with
          | some (n, rest2) => (reParseF fuel rest2).map (fun a => .lit '1' :: .digits n :: a)
          | none => none
      | '\\' :: 'd' :: '{' :: r =>
          match groupTail r with
          | some (n, rest2) => (reParseF fuel rest2).map (fun a => .digits n :: a)
          | none => none
      | '\\' :: 'd' :: '+' :: ')' :: r => (reParseF fuel r).map (.digitsPlus :: ·)
      | _ => none
    else if c == '\\' then
      match rest with
      | 'd' :: r => (reParseF fuel r).map (.digits 1 :: ·)
      | e :: r => if e.isAlphanum then none else (reParseF fuel r).map (.lit e :: ·)
      | [] => none
    else if c == '.' then (reParseF fuel rest).map (.anyc :: ·)
    else if isMetaCh c then none
    else if rest.head? == some '*' then (reParseF fuel rest.tail).map (.star c :: ·)
    else (reParseF fuel rest).map (.lit c :: ·)

/-- Parse a derived regex pattern string, the model of `re.compile` over the
modelled fragment. -/
def reParse (l : List Char) : Option (List RAtom) := reParseF l.length l

/-- The remainders possible after one regex unit consumes a prefix of `s`:
a unit either fails (no remainder) or leaves one of finitely many suffixes. -/
def atomEat (a : RAtom) (s : List Char) : List (List Char) :=
  match a, s with
  | .lit c, x :: s' => if x == c then [s'] else []
  | .lit _, [] => []
  | .anyc, x :: s' => if x != '\n' then [s'] else []
  | .anyc, [] => []
  | .digits n, s =>
      if (s.take n).length == n && (s.take n).all isDigitCh then [s.drop n] else []
  | .digitsPlus, s =>
      (List.range (s.takeWhile isDigitCh).length).map (fun i => s.drop (i + 1))
  | .star c, s =>
      (List.range ((s.takeWhile (· == c)).length + 1)).map (fun i => s.drop i)

/-- Advancing a list of states through a pattern, one unit at a time:
the generic engine shared by the regex and the glob matcher. -/
def chainStates {β : Type} (eat : β → List Char → List (List Char))
    (pat : List β) (sts : List (List Char)) : List (List Char) :=
  pat.foldl (fun sts u => sts.flatMap (eat u)) sts

/-- All remainders after a sequence of regex units consumes a prefix of any
of the argument states. -/
def eatStates (atoms : List RAtom) (sts : List (List Char)) : List (List Char) :=
  chainStates atomEat atoms sts

/-- Start-anchored matching of parsed regex units against a file name, the
model of `re.Pattern.match`: succeeds when the units can consume some prefix
of `file`. -/
def reAtomsMatch (atoms : List RAtom) (file : List Char) : Bool :=
  !(eatStates atoms [file]).isEmpty

/-- `reMatches pat file`: compile the derived pattern and match it against
`file` anchored at the start, the model of `re.compile(pat).match(file)`. -/
def reMatches (pat file : List Char) : Bool :=
  match reParse pat with
  | some atoms => reAtomsMatch atoms file
  | none => false

/-- The remainders possible after one glob pattern character consumes a
prefix of `s`: `*` eats any run of non-`/` characters, `?` one non-`/`
character, and any other character itself. -/
def globEat (c : Char) (s : List Char) : List (List Char) :=
  if c == '*' then
    (List.range ((s.takeWhile (· != '/')).length + 1)).map (fun i => s.drop i)
  else if c == '?' then
    match s with
    | x :: s' => if x != '/' then [s'] else []
    | [] => []
  else
    match s with
    | x :: s' => if x == c then [s'] else []
    | [] => []

/-- All remainders after a glob pattern consumes a prefix of any state. -/
def globStates (p : List Char) (sts : List (List Char)) : List (List Char) :=
  chainStates globEat p sts

/-- Glob matching of a pattern against one path string (full match): `*`
matches any run of non-`/` characters, `?` one non-`/` character, anything
else itself. -/
def globMatch (p s : List Char) : Bool :=
  (globStates p [s]).any (·.isEmpty)

/-- `find_files` (src/pathmanager/utils.py, lines 11-37), over a file system
given as the list of existing path strings: return `(path,)` when the path
exists; otherwise derive the regex pattern (returning `()` on `re.error` or
when no token was substituted), glob with the derived glob pattern, keep the
glob results that the regex matches, and return them sorted. -/
def find_files (fs : List String) (path : String) : List String :=
  if path ∈ fs then [path]
  else
    match reParse (rePatternSubs path.toList) with
    | none => []
    | some atoms =>
      if rePatternSubs path.toList = path.toList then []
      else
        let globP := globPatternSubs path.toList
        let allFiles := fs.filter fun f => globMatch globP f.toList
        let files := allFiles.filter fun f => reAtomsMatch atoms f.toList
        List.insertionSort (fun a b => pyLe a b = true) files

/-- `hasSub needle hay`: `needle` occurs as a contiguous substring of
`hay` (the model of Python's `in` on strings). -/
def hasSub (needle hay : List Char) : Bool :=
  (List.range (hay.length + 1)).any (fun i => needle.isPrefixOf (hay.drop i))

/-! ## Pattern segmentations (claim C1)

A `Seg` list describes a path pattern as literal characters interleaved with
recognized tokens.  `renderRE`/`renderGlob` state what the two derived
patterns look like for such a pattern; a claim theorem ties them to the
actual `rePatternSubs`/`globPatternSubs` output by hypothesis.  The `%UDIMd`
token is deliberately absent: the glob chain leaves it as literal text, so
the two derived patterns genuinely diverge on it. -/

inductive Seg where
  | lit (c : Char)
  | dot
  | udim
  | pct0 (d : Nat)
  | hashes (k : Nat)
  | fdig (d : Nat)
  | fplain
  deriving DecidableEq, Repr

/-- The digit character for `d < 10`. -/
def digitChar10 (d : Nat) : Char := Char.ofNat ('0'.toNat + d)

/-- What one segment contributes to the derived regex pattern. -/
def segRE : Seg → List Char
  | .lit c => [c]
  | .dot => ['.']
  | .udim => udimRepl
  | .pct0 d => digitGroup [digitChar10 d]
  | .hashes k => digitGroup (natChars k)
  | .fdig d => digitGroup [digitChar10 d]
  | .fplain => plusGroup

/-- The derived regex pattern of a segmented path pattern. -/
def renderRE (segs : List Seg) : List Char := segs.flatMap segRE

/-- What one segment contributes to the derived glob pattern. -/
def segGlob : Seg → List Char
  | .lit c => [c]
  | .dot => ['.']
  | _ => ['*']

/-- The derived glob pattern of a segmented path pattern. -/
def renderGlob (segs : List Seg) : List Char := segs.flatMap segGlob

/-- The regex units a segment's rendering parses to. -/
def segAtoms : Seg → List RAtom
  | .lit c => [.lit c]
  | .dot => [.anyc]
  | .udim => [.lit '1', .digits 3]
  | .pct0 d => [.digits d]
  | .hashes k => [.digits k]
  | .fdig d => [.digits d]
  | .fplain => [.digitsPlus]

/-- The regex units of a whole segmentation. -/
def segsAtoms (segs : List Seg) : List RAtom := segs.flatMap segAtoms

/-- Literal characters allowed in a segmentation: no regex metacharacters
(hence also neither glob wildcard). -/
def plainCh (c : Char) : Bool := !isMetaCh c

/-- Well-formedness of one segment: plain literals, single-digit counts for
the `%0Nd` and `$FN` tokens, a nonempty run for `#+`. -/
def segOk : Seg → Bool
  | .lit c => plainCh c
  | .pct0 d => decide (d ≤ 9)
  | .fdig d => decide (d ≤ 9)
  | .hashes k => decide (1 ≤ k)
  | _ => true

def segsOk (segs : List Seg) : Bool := segs.all segOk

/-- `fillOk segs file`: `file` is obtained from the segmented pattern by
substituting each token occurrence with a digit string of the required
shape (`1` plus three digits for UDIM, exactly the stated count for `%0Nd`,
`#+` and `$FN`, one or more digits for `$F`). -/
def fillOk : List Seg → List Char → Bool
  | [], [] => true
  | [], _ :: _ => false
  | .lit c :: segs, x :: s => x == c && fillOk segs s
  | .lit _ :: _, [] => false
  | .dot :: segs, x :: s => x == '.' && fillOk segs s
  | .dot :: _, [] => false
  | .udim :: segs, s =>
      match s with
      | x :: a :: b :: c :: t =>
          x == '1' && isDigitCh a && isDigitCh b && isDigitCh c && fillOk segs t
      | _ => false
  | .pct0 d :: segs, s =>
      ((s.take d).length == d && (s.take d).all isDigitCh) && fillOk segs (s.drop d)
  | .hashes k :: segs, s =>
      ((s.take k).length == k && (s.take k).all isDigitCh) && fillOk segs (s.drop k)
  | .fdig d :: segs, s =>
      ((s.take d).length == d && (s.take d).all isDigitCh) && fillOk segs (s.drop d)
  | .fplain :: segs, x :: s => isDigitCh x && (fillOk segs s || fillOk (.fplain :: segs) s)
  | .fplain :: _, [] => false
termination_by segs s => s.length + segs.length
decreasing_by all_goals (simp only [List.length_cons, List.length_drop]; omega)

/-! ## Decimal rendering lemmas -/

theorem natCharsF_fuel : ∀ (n f g : Nat), n ≤ f → n ≤ g →
    natCharsF f n = natCharsF g n := by
  intro n
  induction n using Nat.strongRecOn with
  | _ n ih =>
    intro f g hf hg
    match f, g with
    | 0, 0 => rfl
    | 0, g + 1 =>
        have : n = 0 := by omega
        subst this
        simp [natCharsF]
    | f + 1, 0 =>
        have : n = 0 := by omega
        subst this
        simp [natCharsF]
    | f + 1, g + 1 =>
        by_cases h : n < 10
        · simp [natCharsF, h]
        · simp only [natCharsF, if_neg h]
          rw [ih (n / 10) (by omega) f g (by omega) (by omega)]

theorem natChars_step (n : Nat) :
    natChars n = (if n < 10 then [] else natChars (n / 10)) ++ [digitChar10 (n % 10)] := by
  by_cases h : n < 10
  · rw [if_pos h, List.nil_append]
    match n, h with
    | 0, _ => rfl
    | (m + 1), h =>
      rw [natChars]
      show natCharsF (m + 1) (m + 1) = _
      rw [natCharsF, if_pos h, digitChar10, Nat.mod_eq_of_lt h]
  · rw [if_neg h]
    have h2 : natChars n = natCharsF (n - 1 + 1) n := by
      rw [natChars, natCharsF_fuel n n (n - 1 + 1) le_rfl (by omega)]
    have h3 : natCharsF (n - 1 + 1) n
        = if n < 10 then [Char.ofNat ('0'.toNat + n)]
          else natCharsF (n - 1) (n / 10) ++ [Char.ofNat ('0'.toNat + n % 10)] := rfl
    rw [h2, h3, if_neg h, natCharsF_fuel (n / 10) (n - 1) (n / 10) (by omega) le_rfl]
    rfl

theorem digitChar10_digit {d : Nat} (h : d < 10) : isDigitCh (digitChar10 d) = true := by
  interval_cases d <;> decide

theorem digitChar10_val {d : Nat} (h : d < 10) :
    (digitChar10 d).toNat - '0'.toNat = d := by
  interval_cases d <;> decide

theorem natChars_all_digits (n : Nat) : ∀ c ∈ natChars n, isDigitCh c = true := by
  induction n using Nat.strongRecOn with
  | _ n ih =>
    rw [natChars_step]
    intro c hc
    rcases List.mem_append.mp hc with h | h
    · by_cases h10 : n < 10
      · simp [h10] at h
      · exact ih (n / 10) (by omega) c (by simpa [h10] using h)
    · rw [List.mem_singleton] at h
      subst h
      exact digitChar10_digit (Nat.mod_lt _ (by omega))

theorem natChars_ne_nil (n : Nat) : natChars n ≠ [] := by
  rw [natChars_step]; simp

theorem digitsVal_append_last (xs : List Char) (c : Char) :
    digitsVal (xs ++ [c]) = digitsVal xs * 10 + (c.toNat - '0'.toNat) := by
  simp [digitsVal, List.foldl_append]

theorem digitsVal_natChars (n : Nat) : digitsVal (natChars n) = n := by
  induction n using Nat.strongRecOn with
  | _ n ih =>
    rw [natChars_step]
    by_cases h : n < 10
    · simp only [if_pos h, List.nil_append]
      have hv := digitChar10_val (d := n % 10) (Nat.mod_lt (x := n) (by omega))
      simp only [digitsVal, List.foldl_cons, List.foldl_nil, Nat.zero_mul, Nat.zero_add]
      omega
    · simp only [if_neg h, digitsVal_append_last]
      rw [ih (n / 10) (by omega), digitChar10_val (Nat.mod_lt _ (by omega))]
      omega

theorem digitsVal_one {d : Nat} (h : d ≤ 9) : digitsVal [digitChar10 d] = d := by
  have h1 : digitsVal [digitChar10 d] = (digitChar10 d).toNat - '0'.toNat := by
    simp [digitsVal]
  rw [h1, digitChar10_val (by omega)]

/-! ## `groupTail` on an inserted digit group -/

theorem takeWhile_digits_append (ds : List Char) (hds : ∀ c ∈ ds, isDigitCh c = true)
    (r : List Char) (hr : r.head? = some '}') :
    (ds ++ r).takeWhile isDigitCh = ds ∧ (ds ++ r).dropWhile isDigitCh = r := by
  induction ds with
  | nil =>
    cases r with
    | nil => simp at hr
    | cons x r' =>
      rw [List.head?_cons, Option.some.injEq] at hr
      subst hr
      constructor
      · rw [List.nil_append, List.takeWhile_cons, if_neg (by decide)]
      · rw [List.nil_append, List.dropWhile_cons, if_neg (by decide)]
  | cons c t ih =>
    have hc : isDigitCh c = true := hds c (by simp)
    obtain ⟨h1, h2⟩ := ih (fun x hx => hds x (by simp [hx]))
    constructor
    · simp [List.takeWhile_cons, hc, h1]
    · simp [List.dropWhile_cons, hc, h2]

theorem groupTail_digits (ds : List Char) (hne : ds ≠ [])
    (hds : ∀ c ∈ ds, isDigitCh c = true) (rest : List Char) :
    groupTail (ds ++ '}' :: ')' :: rest) = some (digitsVal ds, rest) := by
  obtain ⟨h1, h2⟩ := takeWhile_digits_append ds hds ('}' :: ')' :: rest) (by simp)
  rw [groupTail, h1, h2]
  cases ds with
  | nil => exact absurd rfl hne
  | cons c t => rfl

/-! ## One-step parse lemmas for the rendered segments -/

theorem beq_false_of_meta_mismatch {c d : Char} (hm : isMetaCh c = false)
    (hd : isMetaCh d = true) : (c == d) = false := by
  apply Bool.eq_false_iff.mpr
  intro h
  rw [beq_iff_eq] at h
  subst h
  rw [hm] at hd
  exact Bool.false_ne_true hd

theorem reParseF_lit (f : Nat) (c : Char) (rest : List Char) (hc : plainCh c = true)
    (hrest : rest.head? ≠ some '*') :
    reParseF (f + 1) (c :: rest) = (reParseF f rest).map (fun a => RAtom.lit c :: a) := by
  have hmeta : isMetaCh c = false := by
    have h0 := hc
    rw [plainCh, Bool.not_eq_true'] at h0
    exact h0
  have h1 : (c == '(') = false := beq_false_of_meta_mismatch hmeta (by decide)
  have h2 : (c == '\\') = false := beq_false_of_meta_mismatch hmeta (by decide)
  have h3 : (c == '.') = false := beq_false_of_meta_mismatch hmeta (by decide)
  have h5 : (rest.head? == some '*') = false := by
    apply Bool.eq_false_iff.mpr
    intro h
    exact hrest (by simpa using h)
  simp only [reParseF, h1, h2, h3, hmeta, h5, Bool.false_eq_true, if_false]

theorem reParseF_udim (f : Nat) (rest : List Char) :
    reParseF (f + 1) (udimRepl ++ rest)
      = (reParseF f rest).map (fun a => .lit '1' :: .digits 3 :: a) := rfl

theorem reParseF_digitGroup (f : Nat) (ds rest : List Char) (hne : ds ≠ [])
    (hds : ∀ c ∈ ds, isDigitCh c = true) :
    reParseF (f + 1) (digitGroup ds ++ rest)
      = (reParseF f rest).map (fun a => .digits (digitsVal ds) :: a) := by
  have h := groupTail_digits ds hne hds rest
  have harr : digitGroup ds ++ rest
      = '(' :: '\\' :: 'd' :: '{' :: (ds ++ ('}' :: ')' :: rest)) := by
    simp [digitGroup]
  rw [harr]
  cases ds with
  | nil => exact absurd rfl hne
  | cons d dt =>
    rw [show (d :: dt) ++ ('}' :: ')' :: rest) = d :: (dt ++ ('}' :: ')' :: rest)) by simp] at h
    calc reParseF (f + 1) ('(' :: '\\' :: 'd' :: '{' :: (d :: (dt ++ ('}' :: ')' :: rest))))
        = (match groupTail (d :: (dt ++ ('}' :: ')' :: rest))) with
           | some (n, rest2) => (reParseF f rest2).map (fun a => RAtom.digits n :: a)
           | none => none) := rfl
      _ = (reParseF f rest).map (fun a => RAtom.digits (digitsVal (d :: dt)) :: a) := by
          rw [h]

theorem reParseF_plus (f : Nat) (rest : List Char) :
    reParseF (f + 1) (plusGroup ++ rest)
      = (reParseF f rest).map (fun a => .digitsPlus :: a) := rfl

/-! ## The parse bridge: the rendered pattern parses to the expected units -/

theorem segRE_ne_nil (s : Seg) : segRE s ≠ [] := by
  cases s <;> simp [segRE, udimRepl, digitGroup, plusGroup]

theorem segRE_head_ne_star {s : Seg} (h : segOk s = true) :
    (segRE s).head? ≠ some '*' := by
  cases s with
  | lit c =>
    simp only [segRE, List.head?_cons, ne_eq, Option.some.injEq]
    intro hc
    subst hc
    rw [segOk, plainCh, Bool.not_eq_true'] at h
    exact absurd h (by decide)
  | dot => simp [segRE]
  | udim => simp [segRE, udimRepl]
  | pct0 d => simp [segRE, digitGroup]
  | hashes k => simp [segRE, digitGroup]
  | fdig d => simp [segRE, digitGroup]
  | fplain => simp [segRE, plusGroup]

theorem renderRE_append_head_ne_star (segs : List Seg) (hok : segsOk segs = true)
    (rest : List Char) (hr : rest.head? ≠ some '*') :
    (renderRE segs ++ rest).head? ≠ some '*' := by
  cases segs with
  | nil => simpa [renderRE] using hr
  | cons sg t =>
    have hsg : segOk sg = true := by
      rw [segsOk, List.all_cons, Bool.and_eq_true] at hok
      exact hok.1
    have hhd := segRE_head_ne_star hsg
    obtain ⟨a, l, hsr⟩ : ∃ a l, segRE sg = a :: l := by
      cases hsr : segRE sg with
      | nil => exact absurd hsr (segRE_ne_nil sg)
      | cons a l => exact ⟨a, l, rfl⟩
    have hrend : renderRE (sg :: t) ++ rest = a :: (l ++ (renderRE t ++ rest)) := by
      simp [renderRE, List.flatMap_cons, hsr]
    rw [hrend, List.head?_cons]
    rw [hsr, List.head?_cons] at hhd
    exact hhd

theorem segs_length_le_renderRE (segs : List Seg) :
    segs.length ≤ (renderRE segs).length := by
  induction segs with
  | nil => simp [renderRE]
  | cons sg t ih =>
    rw [renderRE, List.flatMap_cons, List.length_append]
    have hne := segRE_ne_nil sg
    have h1 : 1 ≤ (segRE sg).length := by
      cases hsr : segRE sg with
      | nil => exact absurd hsr hne
      | cons a l => simp
    rw [renderRE] at ih
    simp only [List.length_cons]
    omega

theorem reParseF_renderRE_append (segs : List Seg) (hok : segsOk segs = true)
    (rest : List Char) (hr : rest.head? ≠ some '*') (fuel : Nat) :
    reParseF (fuel + segs.length) (renderRE segs ++ rest)
      = (reParseF fuel rest).map (fun a => segsAtoms segs ++ a) := by
  induction segs with
  | nil =>
    simp only [renderRE, List.flatMap_nil, List.nil_append, List.length_nil, Nat.add_zero,
      segsAtoms]
    cases reParseF fuel rest <;> simp
  | cons sg t ih =>
    rw [segsOk, List.all_cons, Bool.and_eq_true] at hok
    obtain ⟨hsg, htok⟩ := hok
    have hih := ih htok
    have hhd : (renderRE t ++ rest).head? ≠ some '*' :=
      renderRE_append_head_ne_star t htok rest hr
    have hrend : renderRE (sg :: t) ++ rest = segRE sg ++ (renderRE t ++ rest) := by
      simp [renderRE, List.flatMap_cons]
    have hfuel : fuel + (sg :: t).length = (fuel + t.length) + 1 := by
      simp only [List.length_cons]; omega
    rw [hrend, hfuel]
    have hatoms : segsAtoms (sg :: t) = segAtoms sg ++ segsAtoms t := by
      rw [segsAtoms, List.flatMap_cons]; rfl
    cases sg with
    | lit c =>
      have hc : plainCh c = true := hsg
      rw [show segRE (Seg.lit c) = [c] from rfl, List.singleton_append]
      rw [reParseF_lit _ c _ hc hhd, hih]
      rw [hatoms]
      cases reParseF fuel rest <;> simp [segAtoms]
    | dot =>
      rw [show segRE Seg.dot = ['.'] from rfl, List.singleton_append]
      have hstep : reParseF ((fuel + t.length) + 1) ('.' :: (renderRE t ++ rest))
          = (reParseF (fuel + t.length) (renderRE t ++ rest)).map
              (fun a => RAtom.anyc :: a) := rfl
      rw [hstep, hih, hatoms]
      cases reParseF fuel rest <;> simp [segAtoms]
    | udim =>
      rw [show segRE Seg.udim = udimRepl from rfl]
      rw [reParseF_udim, hih]
      rw [hatoms]
      cases reParseF fuel rest <;> simp [segAtoms]
    | pct0 d =>
      have hd : d ≤ 9 := by
        rw [segOk, decide_eq_true_eq] at hsg
        exact hsg
      rw [show segRE (Seg.pct0 d) = digitGroup [digitChar10 d] from rfl]
      rw [reParseF_digitGroup _ _ _ (by simp)
        (by intro x hx; rw [List.mem_singleton] at hx; subst hx
            exact digitChar10_digit (by omega)), hih]
      rw [hatoms, digitsVal_one hd]
      cases reParseF fuel rest <;> simp [segAtoms]
    | hashes k =>
      rw [show segRE (Seg.hashes k) = digitGroup (natChars k) from rfl]
      rw [reParseF_digitGroup _ _ _ (natChars_ne_nil k) (natChars_all_digits k), hih]
      rw [hatoms, digitsVal_natChars]
      cases reParseF fuel rest <;> simp [segAtoms]
    | fdig d =>
      have hd : d ≤ 9 := by
        rw [segOk, decide_eq_true_eq] at hsg
        exact hsg
      rw [show segRE (Seg.fdig d) = digitGroup [digitChar10 d] from rfl]
      rw [reParseF_digitGroup _ _ _ (by simp)
        (by intro x hx; rw [List.mem_singleton] at hx; subst hx
            exact digitChar10_digit (by omega)), hih]
      rw [hatoms, digitsVal_one hd]
      cases reParseF fuel rest <;> simp [segAtoms]
    | fplain =>
      rw [show segRE Seg.fplain = plusGroup from rfl]
      rw [reParseF_plus, hih]
      rw [hatoms]
      cases reParseF fuel rest <;> simp [segAtoms]

/-- The derived regex pattern of a well-formed segmentation compiles, and
compiles to exactly the expected matching units. -/
theorem reParse_renderRE (segs : List Seg) (hok : segsOk segs = true) :
    reParse (renderRE segs) = some (segsAtoms segs) := by
  have hlen := segs_length_le_renderRE segs
  rw [reParse]
  have h1 : (renderRE segs).length
      = ((renderRE segs).length - segs.length) + segs.length := by omega
  rw [h1]
  have h2 : renderRE segs = renderRE segs ++ [] := by simp
  conv_lhs => rw [h2]
  rw [reParseF_renderRE_append segs hok [] (by simp) _]
  simp [reParseF]

/-! ## State-engine lemmas -/

theorem chainStates_nil {β : Type} (eat : β → List Char → List (List Char))
    (sts : List (List Char)) : chainStates eat [] sts = sts := rfl

theorem chainStates_cons {β : Type} (eat : β → List Char → List (List Char))
    (u : β) (pat : List β) (sts : List (List Char)) :
    chainStates eat (u :: pat) sts = chainStates eat pat (sts.flatMap (eat u)) := rfl

theorem chainStates_append {β : Type} (eat : β → List Char → List (List Char))
    (p q : List β) (sts : List (List Char)) :
    chainStates eat (p ++ q) sts = chainStates eat q (chainStates eat p sts) := by
  simp [chainStates, List.foldl_append]

theorem chainStates_flat {β : Type} (eat : β → List Char → List (List Char))
    (pat : List β) : ∀ sts, chainStates eat pat sts
      = sts.flatMap (fun s => chainStates eat pat [s]) := by
  induction pat with
  | nil =>
    intro sts
    simp [chainStates]
  | cons u t ih =>
    intro sts
    have h2 : ∀ s, chainStates eat (u :: t) [s] = chainStates eat t (eat u s) := by
      intro s
      rw [chainStates_cons]
      congr 1
      simp
    rw [chainStates_cons, ih, List.flatMap_assoc]
    congr 1
    funext s
    rw [h2 s, ih (eat u s)]

theorem mem_chainStates_lift {β : Type} {eat : β → List Char → List (List Char)}
    {pat : List β} {sts : List (List Char)} {u x : List Char}
    (hu : u ∈ sts) (hx : x ∈ chainStates eat pat [u]) : x ∈ chainStates eat pat sts := by
  rw [chainStates_flat]
  exact List.mem_flatMap.mpr ⟨u, hu, hx⟩

theorem chainStates_mono {β : Type} {eat : β → List Char → List (List Char)}
    {pat : List β} {sts1 sts2 : List (List Char)} (h : ∀ x ∈ sts1, x ∈ sts2) :
    ∀ x ∈ chainStates eat pat sts1, x ∈ chainStates eat pat sts2 := by
  intro x hx
  rw [chainStates_flat] at hx
  obtain ⟨u, hu, hxu⟩ := List.mem_flatMap.mp hx
  exact mem_chainStates_lift (h u hu) hxu

/-! ## Digit runs and the `*` and `\d+` state transitions -/

theorem le_takeWhile_length {p : Char → Bool} : ∀ (s : List Char) (k : Nat),
    k ≤ s.length → (∀ c ∈ s.take k, p c = true) → k ≤ (s.takeWhile p).length := by
  intro s
  induction s with
  | nil => intro k hk _; simpa using hk
  | cons x t ih =>
    intro k hk hall
    cases k with
    | zero => omega
    | succ k' =>
      have hx : p x = true := hall x (by simp [List.take_succ_cons])
      rw [List.takeWhile_cons, if_pos hx]
      have hk' := ih k' (by simpa using hk)
        (fun c hc => hall c (by simp [List.take_succ_cons, hc]))
      simpa using hk'

theorem drop_mem_starEat {s : List Char} {k : Nat}
    (h : k ≤ (s.takeWhile (· != '/')).length) : s.drop k ∈ globEat '*' s := by
  rw [globEat.eq_def, if_pos (by decide)]
  exact List.mem_map.mpr ⟨k, List.mem_range.mpr (by omega), rfl⟩

theorem drop_mem_dplusEat {s : List Char} {k : Nat} (hk : 1 ≤ k)
    (h : k ≤ (s.takeWhile isDigitCh).length) : s.drop k ∈ atomEat .digitsPlus s := by
  rw [atomEat]
  refine List.mem_map.mpr ⟨k - 1, List.mem_range.mpr (by omega), ?_⟩
  congr 1
  omega

theorem starEat_cons_subset {x : Char} {s : List Char} (hx : (x != '/') = true) :
    ∀ u ∈ globEat '*' s, u ∈ globEat '*' (x :: s) := by
  intro u hu
  rw [globEat.eq_def, if_pos (by decide)] at hu
  obtain ⟨i, hi, rfl⟩ := List.mem_map.mp hu
  rw [List.mem_range] at hi
  rw [globEat.eq_def, if_pos (by decide)]
  refine List.mem_map.mpr ⟨i + 1, List.mem_range.mpr ?_, by simp⟩
  rw [List.takeWhile_cons, if_pos hx]
  simp
  omega

theorem dplusEat_cons_subset {x : Char} {s : List Char} (hx : isDigitCh x = true) :
    ∀ u ∈ atomEat .digitsPlus s, u ∈ atomEat .digitsPlus (x :: s) := by
  intro u hu
  rw [atomEat] at hu
  obtain ⟨i, hi, rfl⟩ := List.mem_map.mp hu
  rw [List.mem_range] at hi
  rw [atomEat]
  refine List.mem_map.mpr ⟨i + 1, List.mem_range.mpr ?_, by simp⟩
  rw [List.takeWhile_cons, if_pos hx]
  simp
  omega

theorem eatStates_cons_single (a : RAtom) (A : List RAtom) (s : List Char) :
    eatStates (a :: A) [s] = eatStates A (atomEat a s) := by
  rw [eatStates, chainStates_cons]
  congr 1
  simp

theorem globStates_cons_single (c : Char) (p : List Char) (s : List Char) :
    globStates (c :: p) [s] = globStates p (globEat c s) := by
  rw [globStates, chainStates_cons]
  congr 1
  simp

theorem segsAtoms_cons (sg : Seg) (t : List Seg) :
    segsAtoms (sg :: t) = segAtoms sg ++ segsAtoms t := by
  rw [segsAtoms, List.flatMap_cons]
  rfl

/-- A file obtained by filling the tokens of a well-formed segmentation with
digit strings of the required shapes is consumed in full by the compiled
regex units. -/
theorem fill_matches_atoms : ∀ (n : Nat) (segs : List Seg) (s : List Char),
    s.length + segs.length ≤ n → fillOk segs s = true → segsOk segs = true →
    [] ∈ eatStates (segsAtoms segs) [s] := by
  intro n
  induction n with
  | zero =>
    intro segs s hlen hfill _
    have hs : segs = [] := by
      cases segs with
      | nil => rfl
      | cons a t => simp at hlen
    have hss : s = [] := by
      cases s with
      | nil => rfl
      | cons a t => simp at hlen
    subst hs; subst hss
    simp [segsAtoms, eatStates, chainStates]
  | succ n ih =>
    intro segs s hlen hfill hok
    cases segs with
    | nil =>
      cases s with
      | nil => simp [segsAtoms, eatStates, chainStates]
      | cons x t => simp [fillOk] at hfill
    | cons sg t =>
      rw [segsOk, List.all_cons, Bool.and_eq_true] at hok
      obtain ⟨hsg, htok⟩ := hok
      rw [segsAtoms_cons]
      cases sg with
      | lit c =>
        cases s with
        | nil => simp [fillOk] at hfill
        | cons x u =>
          simp only [fillOk, Bool.and_eq_true] at hfill
          obtain ⟨hxc, hfill'⟩ := hfill
          have hstep : atomEat (.lit c) (x :: u) = [u] := by
            rw [atomEat, if_pos hxc]
          rw [show segAtoms (Seg.lit c) ++ segsAtoms t = RAtom.lit c :: segsAtoms t from rfl]
          rw [eatStates_cons_single, hstep]
          exact ih t u (by simp at hlen ⊢; omega) hfill' htok
      | dot =>
        cases s with
        | nil => simp [fillOk] at hfill
        | cons x u =>
          simp only [fillOk, Bool.and_eq_true] at hfill
          obtain ⟨hxc, hfill'⟩ := hfill
          have hxdot : x = '.' := by rwa [beq_iff_eq] at hxc
          have hstep : atomEat .anyc (x :: u) = [u] := by
            rw [atomEat, if_pos (by rw [hxdot]; decide)]
          rw [show segAtoms Seg.dot ++ segsAtoms t = RAtom.anyc :: segsAtoms t from rfl]
          rw [eatStates_cons_single, hstep]
          exact ih t u (by simp at hlen ⊢; omega) hfill' htok
      | udim =>
        match s with
        | x :: a :: b :: c :: u =>
          simp only [fillOk, Bool.and_eq_true] at hfill
          obtain ⟨⟨⟨⟨hx1, hda⟩, hdb⟩, hdc⟩, hfill'⟩ := hfill
          have hs1 : atomEat (.lit '1') (x :: a :: b :: c :: u) = [a :: b :: c :: u] := by
            rw [atomEat, if_pos hx1]
          have hs2 : atomEat (.digits 3) (a :: b :: c :: u) = [u] := by
            rw [atomEat, if_pos]
            · simp
            · simp [hda, hdb, hdc]
          rw [show segAtoms Seg.udim ++ segsAtoms t
              = RAtom.lit '1' :: RAtom.digits 3 :: segsAtoms t from rfl]
          rw [eatStates_cons_single, hs1, eatStates_cons_single, hs2]
          exact ih t u (by simp at hlen ⊢; omega) hfill' htok
        | [] => simp [fillOk] at hfill
        | [x] => simp [fillOk] at hfill
        | [x, a] => simp [fillOk] at hfill
        | [x, a, b] => simp [fillOk] at hfill
      | pct0 d =>
        simp only [fillOk, Bool.and_eq_true] at hfill
        obtain ⟨hcond, hfill'⟩ := hfill
        have hstep : atomEat (.digits d) s = [s.drop d] := by
          rw [atomEat, if_pos (by rw [Bool.and_eq_true]; exact ⟨hcond.1, hcond.2⟩)]
        rw [show segAtoms (Seg.pct0 d) ++ segsAtoms t = RAtom.digits d :: segsAtoms t from rfl]
        rw [eatStates_cons_single, hstep]
        refine ih t (s.drop d) ?_ hfill' htok
        have hdrop := List.length_drop d s
        simp only [List.length_cons] at hlen
        omega
      | hashes k =>
        simp only [fillOk, Bool.and_eq_true] at hfill
        obtain ⟨hcond, hfill'⟩ := hfill
        have hstep : atomEat (.digits k) s = [s.drop k] := by
          rw [atomEat, if_pos (by rw [Bool.and_eq_true]; exact ⟨hcond.1, hcond.2⟩)]
        rw [show segAtoms (Seg.hashes k) ++ segsAtoms t
            = RAtom.digits k :: segsAtoms t from rfl]
        rw [eatStates_cons_single, hstep]
        refine ih t (s.drop k) ?_ hfill' htok
        have hdrop := List.length_drop k s
        simp only [List.length_cons] at hlen
        omega
      | fdig d =>
        simp only [fillOk, Bool.and_eq_true] at hfill
        obtain ⟨hcond, hfill'⟩ := hfill
        have hstep : atomEat (.digits d) s = [s.drop d] := by
          rw [atomEat, if_pos (by rw [Bool.and_eq_true]; exact ⟨hcond.1, hcond.2⟩)]
        rw [show segAtoms (Seg.fdig d) ++ segsAtoms t = RAtom.digits d :: segsAtoms t from rfl]
        rw [eatStates_cons_single, hstep]
        refine ih t (s.drop d) ?_ hfill' htok
        have hdrop := List.length_drop d s
        simp only [List.length_cons] at hlen
        omega
      | fplain =>
        cases s with
        | nil => simp [fillOk] at hfill
        | cons x u =>
          simp only [fillOk, Bool.and_eq_true, Bool.or_eq_true] at hfill
          obtain ⟨hx, hcase⟩ := hfill
          rw [show segAtoms Seg.fplain ++ segsAtoms t
              = RAtom.digitsPlus :: segsAtoms t from rfl]
          rw [eatStates_cons_single]
          rcases hcase with hfill' | hfill'
          · have hu : u ∈ atomEat .digitsPlus (x :: u) := by
              have hdrop1 : (x :: u).drop 1 = u := by simp
              rw [← hdrop1]
              refine drop_mem_dplusEat (by omega) ?_
              rw [List.takeWhile_cons, if_pos hx]
              simp
            refine mem_chainStates_lift hu ?_
            exact ih t u (by simp at hlen ⊢; omega) hfill' htok
          · have hmem := ih (Seg.fplain :: t) u (by simp at hlen ⊢; omega) hfill'
              (by rw [segsOk, List.all_cons]; simp [htok]; rfl)
            rw [segsAtoms_cons, show segAtoms Seg.fplain = [RAtom.digitsPlus] from rfl,
              List.singleton_append, eatStates_cons_single] at hmem
            exact chainStates_mono (dplusEat_cons_subset hx) [] hmem

theorem globEat_lit {c : Char} (hc : plainCh c = true) (x : Char) (s : List Char) :
    globEat c (x :: s) = if x == c then [s] else [] := by
  have hmeta : isMetaCh c = false := by
    rw [plainCh, Bool.not_eq_true'] at hc
    exact hc
  have h1 : (c == '*') = false := beq_false_of_meta_mismatch hmeta (by decide)
  have h2 : (c == '?') = false := beq_false_of_meta_mismatch hmeta (by decide)
  rw [globEat.eq_def, h1, h2]
  simp

theorem digit_ne_slash {c : Char} (h : isDigitCh c = true) : (c != '/') = true := by
  rw [bne_iff_ne]
  intro he
  subst he
  exact absurd h (by decide)

theorem renderGlob_cons (sg : Seg) (t : List Seg) :
    renderGlob (sg :: t) = segGlob sg ++ renderGlob t := by
  rw [renderGlob, List.flatMap_cons]
  rfl

/-- A digit prefix of length `k` lets the glob `*` consume exactly `k`
characters. -/
theorem drop_mem_starEat_of_digits {s : List Char} {k : Nat}
    (hlen : (s.take k).length = k) (hdig : (s.take k).all isDigitCh = true) :
    s.drop k ∈ globEat '*' s := by
  refine drop_mem_starEat (le_takeWhile_length s k ?_ ?_)
  · have h1 := List.length_take k s
    omega
  · intro c hc
    exact digit_ne_slash (by
      rw [List.all_eq_true] at hdig
      exact hdig c hc)

/-- A file obtained by filling the tokens of a well-formed segmentation with
digit strings of the required shapes is matched in full by the derived glob
pattern. -/
theorem fill_matches_glob : ∀ (n : Nat) (segs : List Seg) (s : List Char),
    s.length + segs.length ≤ n → fillOk segs s = true → segsOk segs = true →
    [] ∈ globStates (renderGlob segs) [s] := by
  intro n
  induction n with
  | zero =>
    intro segs s hlen hfill _
    have hs : segs = [] := by
      cases segs with
      | nil => rfl
      | cons a t => simp at hlen
    have hss : s = [] := by
      cases s with
      | nil => rfl
      | cons a t => simp at hlen
    subst hs; subst hss
    simp [renderGlob, globStates, chainStates]
  | succ n ih =>
    intro segs s hlen hfill hok
    cases segs with
    | nil =>
      cases s with
      | nil => simp [renderGlob, globStates, chainStates]
      | cons x t => simp [fillOk] at hfill
    | cons sg t =>
      rw [segsOk, List.all_cons, Bool.and_eq_true] at hok
      obtain ⟨hsg, htok⟩ := hok
      rw [renderGlob_cons]
      cases sg with
      | lit c =>
        cases s with
        | nil => simp [fillOk] at hfill
        | cons x u =>
          simp only [fillOk, Bool.and_eq_true] at hfill
          obtain ⟨hxc, hfill'⟩ := hfill
          rw [show segGlob (Seg.lit c) ++ renderGlob t = c :: renderGlob t from rfl]
          rw [globStates_cons_single, globEat_lit hsg, if_pos hxc]
          exact ih t u (by simp at hlen ⊢; omega) hfill' htok
      | dot =>
        cases s with
        | nil => simp [fillOk] at hfill
        | cons x u =>
          simp only [fillOk, Bool.and_eq_true] at hfill
          obtain ⟨hxc, hfill'⟩ := hfill
          rw [show segGlob Seg.dot ++ renderGlob t = '.' :: renderGlob t from rfl]
          have hstep : globEat '.' (x :: u) = if x == '.' then [u] else [] := rfl
          rw [globStates_cons_single, hstep, if_pos hxc]
          exact ih t u (by simp at hlen ⊢; omega) hfill' htok
      | udim =>
        match s with
        | x :: a :: b :: c :: u =>
          simp only [fillOk, Bool.and_eq_true] at hfill
          obtain ⟨⟨⟨⟨hx1, hda⟩, hdb⟩, hdc⟩, hfill'⟩ := hfill
          have hx1' : x = '1' := by rwa [beq_iff_eq] at hx1
          have hxd : isDigitCh x = true := by rw [hx1']; decide
          have hmem : u ∈ globEat '*' (x :: a :: b :: c :: u) := by
            have h4 : ((x :: a :: b :: c :: u).take 4).length = 4 := by simp
            have hd4 : ((x :: a :: b :: c :: u).take 4).all isDigitCh = true := by
              simp [List.all_cons, hxd, hda, hdb, hdc]
            have h5 := drop_mem_starEat_of_digits h4 hd4
            simpa using h5
          rw [show segGlob Seg.udim ++ renderGlob t = '*' :: renderGlob t from rfl]
          rw [globStates_cons_single]
          refine mem_chainStates_lift hmem ?_
          exact ih t u (by simp at hlen ⊢; omega) hfill' htok
        | [] => simp [fillOk] at hfill
        | [x] => simp [fillOk] at hfill
        | [x, a] => simp [fillOk] at hfill
        | [x, a, b] => simp [fillOk] at hfill
      | pct0 d =>
        simp only [fillOk, Bool.and_eq_true] at hfill
        obtain ⟨hcond, hfill'⟩ := hfill
        have hmem : s.drop d ∈ globEat '*' s :=
          drop_mem_starEat_of_digits (by rw [← beq_iff_eq]; exact hcond.1) hcond.2
        rw [show segGlob (Seg.pct0 d) ++ renderGlob t = '*' :: renderGlob t from rfl]
        rw [globStates_cons_single]
        refine mem_chainStates_lift hmem ?_
        refine ih t (s.drop d) ?_ hfill' htok
        have hdrop := List.length_drop d s
        simp only [List.length_cons] at hlen
        omega
      | hashes k =>
        simp only [fillOk, Bool.and_eq_true] at hfill
        obtain ⟨hcond, hfill'⟩ := hfill
        have hmem : s.drop k ∈ globEat '*' s :=
          drop_mem_starEat_of_digits (by rw [← beq_iff_eq]; exact hcond.1) hcond.2
        rw [show segGlob (Seg.hashes k) ++ renderGlob t = '*' :: renderGlob t from rfl]
        rw [globStates_cons_single]
        refine mem_chainStates_lift hmem ?_
        refine ih t (s.drop k) ?_ hfill' htok
        have hdrop := List.length_drop k s
        simp only [List.length_cons] at hlen
        omega
      | fdig d =>
        simp only [fillOk, Bool.and_eq_true] at hfill
        obtain ⟨hcond, hfill'⟩ := hfill
        have hmem : s.drop d ∈ globEat '*' s :=
          drop_mem_starEat_of_digits (by rw [← beq_iff_eq]; exact hcond.1) hcond.2
        rw [show segGlob (Seg.fdig d) ++ renderGlob t = '*' :: renderGlob t from rfl]
        rw [globStates_cons_single]
        refine mem_chainStates_lift hmem ?_
        refine ih t (s.drop d) ?_ hfill' htok
        have hdrop := List.length_drop d s
        simp only [List.length_cons] at hlen
        omega
      | fplain =>
        cases s with
        | nil => simp [fillOk] at hfill
        | cons x u =>
          simp only [fillOk, Bool.and_eq_true, Bool.or_eq_true] at hfill
          obtain ⟨hx, hcase⟩ := hfill
          rw [show segGlob Seg.fplain ++ renderGlob t = '*' :: renderGlob t from rfl]
          rw [globStates_cons_single]
          rcases hcase with hfill' | hfill'
          · have hmem : u ∈ globEat '*' (x :: u) := by
              have h1 : ((x :: u).take 1).length = 1 := by simp
              have hd1 : ((x :: u).take 1).all isDigitCh = true := by
                simp [List.all_cons, hx]
              have h5 := drop_mem_starEat_of_digits h1 hd1
              simpa using h5
            refine mem_chainStates_lift hmem ?_
            exact ih t u (by simp at hlen ⊢; omega) hfill' htok
          · have hmem := ih (Seg.fplain :: t) u (by simp at hlen ⊢; omega) hfill'
              (by rw [segsOk, List.all_cons]; simp [htok]; rfl)
            rw [renderGlob_cons, show segGlob Seg.fplain = ['*'] from rfl,
              List.singleton_append, globStates_cons_single] at hmem
            exact chainStates_mono (starEat_cons_subset (digit_ne_slash hx)) [] hmem

/-! ## Claim C1 -/

/-- **C1, counterexample.**  The claim says the derived glob pattern and
the derived regex pattern match the same file set whenever `find_files`
derives them (the regex differs from the input and compiles).  For the
pattern `seq.####.png` the derivation succeeds, yet the file `seq.abcd.png`
is matched by the derived glob pattern `seq.*.png` and rejected by the
derived regex `seq.(\d{4}).png`: the regex filtering step does remove
files from the glob results. -/
theorem c1_glob_regex_same_set_counterexample :
    rePatternSubs "seq.####.png".toList ≠ "seq.####.png".toList ∧
    (reParse (rePatternSubs "seq.####.png".toList)).isSome = true ∧
    globMatch (globPatternSubs "seq.####.png".toList) "seq.abcd.png".toList = true ∧
    reMatches (rePatternSubs "seq.####.png".toList) "seq.abcd.png".toList = false := by
  have h1 : rePatternSubs "seq.####.png".toList = "seq.(\\d{4}).png".toList := by
    simp [rePatternSubs, subUdimRe, subPctUdimRe, subPct0Re, subHashRe, subFDigRe, subFRe,
      isDigitCh, Char.isDigit, digitGroup, natChars, natCharsF, udimRepl, plusGroup]
  have h2 : globPatternSubs "seq.####.png".toList = "seq.*.png".toList := by
    simp [globPatternSubs, subUdimGlob, subFGlob, subHashGlob, subPct0Glob,
      isDigitCh, Char.isDigit]
  rw [h1, h2]
  exact ⟨by decide, by decide, by decide, by decide⟩

/-- **C1 (amended).**  The derived glob and regex patterns do not match the
same file set in general (see the counterexample: the regex rejects glob
matches whose token positions are not digit strings of the required shape).
What holds is one direction of agreement on token fills: for every pattern
whose derived regex and glob patterns are those of a well-formed
segmentation into plain literal characters, literal dots, and the tokens
`<UDIM>`, `%0Nd`, `#+`, `$FN`, `$F` (excluding the mistranslated `%UDIMd`
token, which the glob chain leaves as literal text), every file obtained by
replacing each token with a digit string of the required shape is matched
both by the derived glob pattern and by the derived regex pattern — so the
regex filter removes no such instantiation from the glob results.  Nothing
is claimed in the converse direction: like `re.match`, `reMatches` is
anchored only at the start, so the filter may also keep glob matches that
merely begin with an instantiation (e.g. `img_12345` for `img_####`). -/
theorem c1_amended_fill_matched_by_both_patterns (path : List Char) (segs : List Seg)
    (fill : List Char)
    (hre : rePatternSubs path = renderRE segs)
    (hglob : globPatternSubs path = renderGlob segs)
    (hok : segsOk segs = true) (hfill : fillOk segs fill = true) :
    globMatch (globPatternSubs path) fill = true ∧
    reMatches (rePatternSubs path) fill = true := by
  constructor
  · rw [hglob, globMatch]
    have hmem := fill_matches_glob (fill.length + segs.length) segs fill le_rfl hfill hok
    exact List.any_eq_true.mpr ⟨[], hmem, by simp⟩
  · rw [hre, reMatches, reParse_renderRE segs hok]
    show (!(eatStates (segsAtoms segs) [fill]).isEmpty) = true
    have hmem := fill_matches_atoms (fill.length + segs.length) segs fill le_rfl hfill hok
    rcases hq : eatStates (segsAtoms segs) [fill] with _ | ⟨a, l⟩
    · rw [hq] at hmem
      simp at hmem
    · simp

/-- Witness for the amended C1 theorem at the counterexample's own pattern
`seq.####.png`, segmented as literals, two dots and one `####` token, with
the fill `seq.1234.png`. -/
theorem c1_amended_witness :
    globMatch (globPatternSubs "seq.####.png".toList) "seq.1234.png".toList = true ∧
    reMatches (rePatternSubs "seq.####.png".toList) "seq.1234.png".toList = true := by
  have hre : rePatternSubs "seq.####.png".toList
      = renderRE [Seg.lit 's', Seg.lit 'e', Seg.lit 'q', Seg.dot, Seg.hashes 4,
          Seg.dot, Seg.lit 'p', Seg.lit 'n', Seg.lit 'g'] := by
    simp [rePatternSubs, subUdimRe, subPctUdimRe, subPct0Re, subHashRe, subFDigRe, subFRe,
      isDigitCh, Char.isDigit, digitGroup, natChars, natCharsF, udimRepl, plusGroup,
      renderRE, segRE, digitChar10]
  have hglob : globPatternSubs "seq.####.png".toList
      = renderGlob [Seg.lit 's', Seg.lit 'e', Seg.lit 'q', Seg.dot, Seg.hashes 4,
          Seg.dot, Seg.lit 'p', Seg.lit 'n', Seg.lit 'g'] := by
    simp [globPatternSubs, subUdimGlob, subFGlob, subHashGlob, subPct0Glob,
      isDigitCh, Char.isDigit, renderGlob, segGlob]
  refine c1_amended_fill_matched_by_both_patterns "seq.####.png".toList _
    "seq.1234.png".toList hre hglob (by decide) ?_
  simp [fillOk, isDigitCh, Char.isDigit]

/-! ## Claim C10 -/

/-- **C10, counterexample.**  The claim's token list is wrong about the
second token: the code's `re.sub(r'%(UDIM)d', ...)` pattern contains the
group `(UDIM)`, so it matches the literal text `%UDIMd`, not `%(UDIM)d`.
The path `a*%UDIMd` does not exist, contains none of the tokens the claim
lists (no `<UDIM>`, no `%(UDIM)d`, no `%0Nd`, no `#`, no `$F`), and yet
`find_files` returns a non-empty tuple on a file system containing
`a1001%UDIMd`, because the substitution chain does rewrite `%UDIMd`. -/
theorem c10_find_files_counterexample :
    "a*%UDIMd" ∉ (["a1001%UDIMd"] : List String) ∧
    hasSub "<UDIM>".toList "a*%UDIMd".toList = false ∧
    hasSub "%(UDIM)d".toList "a*%UDIMd".toList = false ∧
    hasSub "%0".toList "a*%UDIMd".toList = false ∧
    hasSub "#".toList "a*%UDIMd".toList = false ∧
    hasSub "$F".toList "a*%UDIMd".toList = false ∧
    find_files ["a1001%UDIMd"] "a*%UDIMd" = ["a1001%UDIMd"] := by
  refine ⟨by decide, by decide, by decide, by decide, by decide, by decide, ?_⟩
  have h1 : rePatternSubs "a*%UDIMd".toList = "a*(1\\d{3})".toList := by
    simp [rePatternSubs, subUdimRe, subPctUdimRe, subPct0Re, subHashRe, subFDigRe,
      subFRe, isDigitCh, Char.isDigit, digitGroup, natChars, natCharsF, udimRepl, plusGroup]
  have h2 : globPatternSubs "a*%UDIMd".toList = "a*%UDIMd".toList := by
    simp [globPatternSubs, subUdimGlob, subFGlob, subHashGlob, subPct0Glob,
      isDigitCh, Char.isDigit]
  rw [find_files, h1, h2]
  decide

/-- **C10 (amended).**  As the claim states, an existing path is returned as
the one-element tuple; and a non-existing path on which the token
substitution chain is the identity (equivalently: a path containing none of
the tokens the code actually recognizes, namely `<UDIM>`, `%UDIMd`, `%0Nd`,
runs of `#`, `$FN` and `$F`) yields the empty tuple. -/
theorem c10_amended_find_files_exists_and_tokenfree (fs : List String) (path : String) :
    (path ∈ fs → find_files fs path = [path]) ∧
    (path ∉ fs → rePatternSubs path.toList = path.toList → find_files fs path = []) := by
  constructor
  · intro h
    rw [find_files, if_pos h]
  · intro h hid
    rw [find_files, if_neg h]
    cases hp : reParse (rePatternSubs path.toList) with
    | none => rfl
    | some atoms =>
      show (if rePatternSubs path.toList = path.toList then ([] : List String) else _) = []
      rw [if_pos hid]

/-- Witness for the amended C10 theorem: an existing path is returned
as-is, and a token-free missing path yields the empty tuple. -/
theorem c10_amended_witness :
    find_files ["a"] "a" = ["a"] ∧ find_files [] "b" = [] := by
  constructor
  · exact (c10_amended_find_files_exists_and_tokenfree ["a"] "a").1 (by simp)
  · refine (c10_amended_find_files_exists_and_tokenfree [] "b").2 (by simp) ?_
    simp [rePatternSubs, subUdimRe, subPctUdimRe, subPct0Re, subHashRe, subFDigRe, subFRe]

/-! ## The item data model (src/src/pathmanager/schema.py) -/

inductive Status where
  | missing
  | found
  | expression
  deriving DecidableEq, Repr

inductive ParmType where
  | file
  | image
  | geometry
  | directory
  | stringType
  deriving DecidableEq, Repr

structure NodeType where
  name : String
  category : String
  deriving DecidableEq, Repr

structure ItemPath where
  raw : String := ""
  expanded : String := ""
  deriving DecidableEq, Repr

structure ItemPreview where
  raw : String := ""
  html : String := ""
  deriving DecidableEq, Repr

structure Item where
  parm_name : String
  parm_type : ParmType
  node_path : String
  node_type : NodeType
  path : ItemPath := {}
  preview : ItemPreview := {}
  status : Status := .missing
  deriving DecidableEq, Repr

/-- Python's `path.replace('\\', '/')`: every backslash becomes a forward
slash. -/
def replaceBackslash (s : String) : String :=
  String.mk (s.toList.map (fun c => if c = '\\' then '/' else c))

/-- `Item.set_preview` (schema.py, lines 55-59): store the empty string when
the new path equals the raw path, otherwise the path with backslashes
replaced by forward slashes. -/
def Item.set_preview (item : Item) (path : String) : Item :=
  if path = item.path.raw then
    { item with preview := { item.preview with raw := "" } }
  else
    { item with preview := { item.preview with raw := replaceBackslash path } }

/-! ## Claim C9 -/

/-- **C9 (confirmed).**  `Item.set_preview p` leaves the item's path,
status, parameter and node fields (and the preview's html part) unchanged;
it sets `preview.raw` to the empty string when `p` equals `path.raw` and
otherwise to `p` with every backslash replaced by a forward slash; in
either case the resulting `preview.raw` contains no backslash, so the
preview a plugin stores through `set_preview` never contains one. -/
theorem c9_set_preview_frame_and_value (item : Item) (p : String) :
    (item.set_preview p).path = item.path ∧
    (item.set_preview p).status = item.status ∧
    (item.set_preview p).parm_name = item.parm_name ∧
    (item.set_preview p).parm_type = item.parm_type ∧
    (item.set_preview p).node_path = item.node_path ∧
    (item.set_preview p).node_type = item.node_type ∧
    (item.set_preview p).preview.html = item.preview.html ∧
    (item.set_preview p).preview.raw
      = (if p = item.path.raw then "" else replaceBackslash p) ∧
    ∀ c ∈ ((item.set_preview p).preview.raw).toList, c ≠ '\\' := by
  unfold Item.set_preview
  by_cases h : p = item.path.raw
  · rw [if_pos h]
    refine ⟨rfl, rfl, rfl, rfl, rfl, rfl, rfl, by rw [if_pos h], ?_⟩
    intro c hc
    simp [String.toList] at hc
  · rw [if_neg h]
    refine ⟨rfl, rfl, rfl, rfl, rfl, rfl, rfl, by rw [if_neg h], ?_⟩
    intro c hc
    simp only [replaceBackslash] at hc
    rw [show (String.mk (p.toList.map (fun c => if c = '\\' then '/' else c))).toList
        = p.toList.map (fun c => if c = '\\' then '/' else c) from rfl] at hc
    obtain ⟨x, -, rfl⟩ := List.mem_map.mp hc
    by_cases hx : x = '\\'
    · rw [if_pos hx]
      decide
    · rw [if_neg hx]
      exact hx

/-! ## VersionPlugin (src/src/pathmanager/plugins/version.py)

`_get_versions` derives a glob pattern from the expanded path by replacing
collection tokens (`\$F{?\d*}?|<UDIM>`) and the digits of version markers
(`([\\/._]v)(\d+)`) with `*`, globs, and for every file whose name carries a
version marker records `int(digits) ↦ version_pattern.sub(path, number)`.
The Houdini `expand_string` call is modelled as an explicit function
argument. -/

/-- The separator class `[\\/._]` of `version_pattern`. -/
def isSepCh (c : Char) : Bool := c == '\\' || c == '/' || c == '.' || c == '_'

/-- The characters consumed by `{?\d*}?` after a `$F` match. -/
def fBraceTail (r : List Char) : List Char :=
  let r1 := match r with
            | '{' :: t => t
            | _ => r
  let r2 := r1.dropWhile isDigitCh
  match r2 with
  | '}' :: t => t
  | _ => r2

/-- `collection_pattern.sub('*', s)` for `re.compile(r'\$F{?\d*}?|<UDIM>')`. -/
def collectionSubF : Nat → List Char → List Char
  | _, [] => []
  | 0, l => l
  | fuel + 1, '<' :: 'U' :: 'D' :: 'I' :: 'M' :: '>' :: rest => '*' :: collectionSubF fuel rest
  | fuel + 1, '$' :: 'F' :: rest => '*' :: collectionSubF fuel (fBraceTail rest)
  | fuel + 1, c :: rest => c :: collectionSubF fuel rest

def collectionSub (l : List Char) : List Char := collectionSubF l.length l

/-- `version_pattern.sub(r'\1*', s)`: keep the separator and the `v`,
replace the digit run with `*`. -/
def versionSubStarF : Nat → List Char → List Char
  | _, [] => []
  | 0, l => l
  | fuel + 1, c :: rest =>
    match rest with
    | 'v' :: d :: rest' =>
        if isSepCh c && isDigitCh d then
          c :: 'v' :: '*' :: versionSubStarF fuel (rest'.dropWhile isDigitCh)
        else c :: versionSubStarF fuel rest
    | _ => c :: versionSubStarF fuel rest

def versionSubStar (l : List Char) : List Char := versionSubStarF l.length l

/-- `version_pattern.search(file)`: digits of the first version marker. -/
def versionSearchF : Nat → List Char → Option (List Char)
  | _, [] => none
  | 0, _ => none
  | fuel + 1, c :: rest =>
    match rest with
    | 'v' :: d :: rest' =>
        if isSepCh c && isDigitCh d then some (d :: rest'.takeWhile isDigitCh)
        else versionSearchF fuel rest
    | _ => versionSearchF fuel rest

def versionSearch (l : List Char) : Option (List Char) := versionSearchF l.length l

/-- Python's `f'{number:0{width}d}'` for a non-negative number: the decimal
digits, zero-padded on the left up to `width`. -/
def fmtNum (n : Nat) (width : Nat) : List Char :=
  List.replicate (width - (natChars n).length) '0' ++ natChars n

/-- `version_pattern.sub(lambda m: m.group(1) + formatted number, path)`:
every version marker's digit run is replaced by `number`, zero-padded to
that run's width. -/
def versionSubNumF (num : Nat) : Nat → List Char → List Char
  | _, [] => []
  | 0, l => l
  | fuel + 1, c :: rest =>
    match rest with
    | 'v' :: d :: rest' =>
        if isSepCh c && isDigitCh d then
          c :: 'v' :: (fmtNum num (d :: rest'.takeWhile isDigitCh).length
            ++ versionSubNumF num fuel (rest'.dropWhile isDigitCh))
        else c :: versionSubNumF num fuel rest
    | _ => c :: versionSubNumF num fuel rest

def versionSubNum (num : Nat) (l : List Char) : List Char := versionSubNumF num l.length l

/-- Python `dict` assignment `d[k] = v`: overwrite in place or append. -/
def dictSet {α β : Type} [BEq α] (d : List (α × β)) (k : α) (v : β) : List (α × β) :=
  if d.any (fun kv => kv.1 == k) then d.map (fun kv => if kv.1 == k then (k, v) else kv)
  else d ++ [(k, v)]

/-- Python `dict.get`. -/
def dictGet {α β : Type} [BEq α] (d : List (α × β)) (k : α) : Option β :=
  (d.find? (fun kv => kv.1 == k)).map (·.2)

/-- `VersionPlugin._get_versions` (version.py, lines 54-75), with the host's
`expand_string` passed in and the file system given as a list of paths. -/
def getVersionsPure (expand : String → String) (fs : List String) (path : String) :
    List (Int × String) :=
  let absolute := expand path
  let globP := versionSubStar (collectionSub absolute.toList)
  let files := fs.filter (fun f => globMatch globP f.toList)
  files.foldl (fun versions file =>
    match versionSearch file.toList with
    | none => versions
    | some ds =>
        let number : Int := (digitsVal ds : Nat)
        let vpath := String.mk (versionSubNum (digitsVal ds) path.toList)
        dictSet versions number vpath) []

/-- The `kwargs` values the version plugin reads:
`values.get('mode', '')` and `values.get('version', 1)`. -/
structure VersionKwargs where
  mode : String := ""
  version : Int := 1
  deriving DecidableEq, Repr

/-- Python `sorted` on a list of strings. -/
def pySorted (l : List String) : List String :=
  List.insertionSort (fun a b => pyLe a b = true) l

/-- One loop iteration of `VersionPlugin.preview` (version.py, lines 17-35):
skip EXPRESSION items, skip items without versions, otherwise store
`sorted(versions.values())[-1]`, `sorted(versions.values())[0]` or
`versions.get(version, '')` through `set_preview`. -/
def versionPreviewItem (expand : String → String) (fs : List String)
    (kw : VersionKwargs) (item : Item) : Item :=
  if item.status = Status.expression then item
  else
    let versions := getVersionsPure expand fs item.path.raw
    if versions = [] then item
    else if kw.mode = "Latest" then
      item.set_preview ((pySorted (versions.map (·.2))).getLastD "")
    else if kw.mode = "Earliest" then
      item.set_preview ((pySorted (versions.map (·.2))).headD "")
    else
      item.set_preview ((dictGet versions kw.version).getD "")

/-- `VersionPlugin.preview` over the whole item sequence. -/
def versionPreview (expand : String → String) (fs : List String)
    (kw : VersionKwargs) (items : List Item) : List Item :=
  items.map (versionPreviewItem expand fs kw)

/-- `VersionPlugin._get_versions` as actually invoked through its
`lru_cache` decorator: a hit returns the stored value and leaves the cache
unchanged; a miss computes the value and appends it to the cache. -/
def getVersionsCached (expand : String → String) (fs : List String)
    (cache : List (String × List (Int × String))) (path : String) :
    List (Int × String) × List (String × List (Int × String)) :=
  match dictGet cache path with
  | some v => (v, cache)
  | none =>
      let v := getVersionsPure expand fs path
      (v, cache ++ [(path, v)])

/-- A cache is faithful to a file system when every stored entry equals the
uncached computation. -/
def cacheWF (expand : String → String) (fs : List String)
    (cache : List (String × List (Int × String))) : Prop :=
  ∀ p v, (p, v) ∈ cache → v = getVersionsPure expand fs p

/-! ## The executable string order agrees with the string order -/

theorem charsLt_iff : ∀ (as bs : List Char), charsLt as bs = true ↔ as < bs
  | [], [] => by
    constructor
    · intro h
      simp [charsLt] at h
    · intro h
      cases h
  | [], b :: bs => by
    constructor
    · intro _
      exact List.Lex.nil
    · intro _
      rfl
  | a :: as, [] => by
    constructor
    · intro h
      simp [charsLt] at h
    · intro h
      cases h
  | a :: as, b :: bs => by
    rw [charsLt]
    by_cases h1 : a < b
    · rw [if_pos h1]
      constructor
      · intro _
        exact List.Lex.rel h1
      · intro _
        rfl
    · by_cases h2 : b < a
      · rw [if_neg h1, if_pos h2]
        constructor
        · intro h
          exact absurd h (by simp)
        · intro h
          cases h with
          | cons _ => exact absurd h2 (lt_irrefl a)
          | rel hab => exact absurd hab h1
      · have hab : a = b := le_antisymm (not_lt.mp h2) (not_lt.mp h1)
        subst hab
        rw [if_neg h1, if_neg h2, charsLt_iff as bs]
        constructor
        · intro h
          exact List.Lex.cons h
        · intro h
          cases h with
          | cons htail => exact htail
          | rel hab => exact absurd hab (lt_irrefl a)

theorem pyLe_iff (a b : String) : pyLe a b = true ↔ a ≤ b := by
  rw [pyLe, Bool.not_eq_true']
  constructor
  · intro h
    rw [← not_lt]
    intro hlt
    rw [String.lt_iff_toList_lt] at hlt
    rw [← charsLt_iff] at hlt
    rw [h] at hlt
    exact Bool.false_ne_true hlt
  · intro h
    rw [← Bool.not_eq_true]
    intro hlt
    rw [charsLt_iff, ← String.lt_iff_toList_lt] at hlt
    exact absurd h (not_le.mpr hlt)

instance : IsTotal String (fun a b => pyLe a b = true) :=
  ⟨fun a b => by
    rcases le_total a b with h | h
    · exact Or.inl ((pyLe_iff a b).mpr h)
    · exact Or.inr ((pyLe_iff b a).mpr h)⟩

instance : IsTrans String (fun a b => pyLe a b = true) :=
  ⟨fun a b c hab hbc =>
    (pyLe_iff a c).mpr (le_trans ((pyLe_iff a b).mp hab) ((pyLe_iff b c).mp hbc))⟩

/-! ## `sorted(...)[-1]` is the maximum, `sorted(...)[0]` the minimum -/

theorem sorted_getLastD_spec :
    ∀ (a : String) (t : List String),
      List.Sorted (fun x y => pyLe x y = true) (a :: t) →
      (a :: t).getLastD "" ∈ a :: t ∧ ∀ x ∈ a :: t, x ≤ (a :: t).getLastD "" := by
  intro a t
  induction t generalizing a with
  | nil =>
    intro _
    constructor
    · simp [List.getLastD]
    · intro x hx
      rw [List.mem_singleton] at hx
      subst hx
      simp [List.getLastD]
  | cons b u ih =>
    intro hs
    rw [List.sorted_cons] at hs
    obtain ⟨ha, hs'⟩ := hs
    obtain ⟨hmem, hmax⟩ := ih b hs'
    have hlast : (a :: b :: u).getLastD "" = (b :: u).getLastD "" := by
      simp [List.getLastD_cons]
    rw [hlast]
    constructor
    · exact List.mem_cons_of_mem a hmem
    · intro x hx
      rcases List.mem_cons.mp hx with rfl | hx'
      · exact (pyLe_iff _ _).mp (ha _ hmem)
      · exact hmax x hx'

theorem sorted_headD_spec (a : String) (t : List String)
    (hs : List.Sorted (fun x y => pyLe x y = true) (a :: t)) :
    (a :: t).headD "" ∈ a :: t ∧ ∀ x ∈ a :: t, (a :: t).headD "" ≤ x := by
  rw [List.sorted_cons] at hs
  obtain ⟨ha, -⟩ := hs
  constructor
  · simp
  · intro x hx
    rcases List.mem_cons.mp hx with rfl | hx'
    · simp
    · exact (pyLe_iff _ _).mp (ha x hx')

theorem pySorted_max (l : List String) (hne : l ≠ []) :
    (pySorted l).getLastD "" ∈ l ∧ ∀ x ∈ l, x ≤ (pySorted l).getLastD "" := by
  unfold pySorted
  have hperm := List.perm_insertionSort (fun a b => pyLe a b = true) l
  have hsort := List.sorted_insertionSort (fun a b => pyLe a b = true) l
  cases hq : List.insertionSort (fun a b => pyLe a b = true) l with
  | nil =>
    rw [hq] at hperm
    exact absurd (List.Perm.eq_nil hperm.symm) hne
  | cons a t =>
    rw [hq] at hperm hsort
    obtain ⟨hmem, hmax⟩ := sorted_getLastD_spec a t hsort
    constructor
    · exact hperm.mem_iff.mp hmem
    · intro x hx
      exact hmax x (hperm.mem_iff.mpr hx)

theorem pySorted_min (l : List String) (hne : l ≠ []) :
    (pySorted l).headD "" ∈ l ∧ ∀ x ∈ l, (pySorted l).headD "" ≤ x := by
  unfold pySorted
  have hperm := List.perm_insertionSort (fun a b => pyLe a b = true) l
  have hsort := List.sorted_insertionSort (fun a b => pyLe a b = true) l
  cases hq : List.insertionSort (fun a b => pyLe a b = true) l with
  | nil =>
    rw [hq] at hperm
    exact absurd (List.Perm.eq_nil hperm.symm) hne
  | cons a t =>
    rw [hq] at hperm hsort
    obtain ⟨hmem, hmin⟩ := sorted_headD_spec a t hsort
    constructor
    · exact hperm.mem_iff.mp hmem
    · intro x hx
      exact hmin x (hperm.mem_iff.mpr hx)

/-! ## Claim C2 -/

/-- Under the claim's hypotheses (non-EXPRESSION item, non-empty version
dictionary), `VersionPlugin.preview` stores the sorted-last, sorted-first
or looked-up version path. -/
theorem versionPreviewItem_eq (expand : String → String) (fs : List String)
    (kw : VersionKwargs) (item : Item) (hstat : ¬ item.status = Status.expression)
    (hvers : ¬ getVersionsPure expand fs item.path.raw = []) :
    versionPreviewItem expand fs kw item =
      (if kw.mode = "Latest" then
        item.set_preview
          ((pySorted ((getVersionsPure expand fs item.path.raw).map (·.2))).getLastD "")
      else if kw.mode = "Earliest" then
        item.set_preview
          ((pySorted ((getVersionsPure expand fs item.path.raw).map (·.2))).headD "")
      else
        item.set_preview
          ((dictGet (getVersionsPure expand fs item.path.raw) kw.version).getD "")) := by
  unfold versionPreviewItem
  rw [if_neg hstat]
  simp only [if_neg hvers]

/-- **C2, counterexample.**  The claim says mode `Latest` stores the path
of the numerically greatest version.  With the raw path `a_v001.png` and
files `a_v999.png` and `a_v1000.png`, the version dictionary is
`{999 ↦ a_v999.png, 1000 ↦ a_v1000.png}`; the numerically greatest version
is 1000, but `sorted(versions.values())[-1]` is the lexicographically
greatest string `a_v999.png`, which is what the preview receives.  An
EXPRESSION item with the same non-empty version dictionary is skipped
entirely, although the claim asserts its preview is also set. -/
theorem c2_version_latest_counterexample :
    getVersionsPure (fun s => s) ["a_v999.png", "a_v1000.png"] "a_v001.png"
      = [((999 : Int), "a_v999.png"), ((1000 : Int), "a_v1000.png")] ∧
    dictGet (getVersionsPure (fun s => s) ["a_v999.png", "a_v1000.png"] "a_v001.png")
      1000 = some "a_v1000.png" ∧
    (∀ kv ∈ getVersionsPure (fun s => s) ["a_v999.png", "a_v1000.png"] "a_v001.png",
        kv.1 ≤ 1000) ∧
    (versionPreviewItem (fun s => s) ["a_v999.png", "a_v1000.png"] { mode := "Latest" }
      { parm_name := "file", parm_type := .file, node_path := "/obj/geo1",
        node_type := { name := "geo", category := "Object" },
        path := { raw := "a_v001.png", expanded := "a_v001.png" },
        status := .found }).preview.raw = "a_v999.png" ∧
    versionPreviewItem (fun s => s) ["a_v999.png", "a_v1000.png"] { mode := "Latest" }
      { parm_name := "file", parm_type := .file, node_path := "/obj/geo1",
        node_type := { name := "geo", category := "Object" },
        path := { raw := "a_v001.png", expanded := "a_v001.png" },
        status := .expression }
      = { parm_name := "file", parm_type := .file, node_path := "/obj/geo1",
          node_type := { name := "geo", category := "Object" },
          path := { raw := "a_v001.png", expanded := "a_v001.png" },
          status := .expression } := by
  exact ⟨by decide, by decide, by decide, by decide, by decide⟩

/-- **C2 (amended).**  `VersionPlugin.preview` maps `versionPreviewItem`
over the items.  For every non-EXPRESSION item whose raw path yields a
non-empty version dictionary: with mode `Latest` the preview receives the
*lexicographically* greatest version path string (the numerically greatest
only when the rendered version numbers compare equally as strings), with
mode `Earliest` the lexicographically smallest, and with any other mode
(`Set` included) the path recorded for the requested version number, or
the empty string when absent.  EXPRESSION items are left untouched. -/
theorem c2_amended_version_preview (expand : String → String) (fs : List String)
    (kw : VersionKwargs) (items : List Item) :
    versionPreview expand fs kw items = items.map (versionPreviewItem expand fs kw) ∧
    ∀ item : Item, ¬ item.status = Status.expression →
      ¬ getVersionsPure expand fs item.path.raw = [] →
      ((kw.mode = "Latest" →
        ∃ m, versionPreviewItem expand fs kw item = item.set_preview m ∧
          m ∈ (getVersionsPure expand fs item.path.raw).map (·.2) ∧
          ∀ x ∈ (getVersionsPure expand fs item.path.raw).map (·.2), x ≤ m) ∧
      (kw.mode = "Earliest" →
        ∃ m, versionPreviewItem expand fs kw item = item.set_preview m ∧
          m ∈ (getVersionsPure expand fs item.path.raw).map (·.2) ∧
          ∀ x ∈ (getVersionsPure expand fs item.path.raw).map (·.2), m ≤ x) ∧
      (¬ kw.mode = "Latest" → ¬ kw.mode = "Earliest" →
        versionPreviewItem expand fs kw item
          = item.set_preview
              ((dictGet (getVersionsPure expand fs item.path.raw) kw.version).getD ""))) := by
  refine ⟨rfl, ?_⟩
  intro item hstat hvers
  have hvals : (getVersionsPure expand fs item.path.raw).map (·.2) ≠ [] := by
    intro h
    exact hvers (List.map_eq_nil_iff.mp h)
  refine ⟨?_, ?_, ?_⟩
  · intro hmode
    refine ⟨(pySorted ((getVersionsPure expand fs item.path.raw).map (·.2))).getLastD "",
      ?_, (pySorted_max _ hvals).1, (pySorted_max _ hvals).2⟩
    rw [versionPreviewItem_eq expand fs kw item hstat hvers, if_pos hmode]
  · intro hmode
    have hlat : ¬ kw.mode = "Latest" := by
      rw [hmode]
      decide
    refine ⟨(pySorted ((getVersionsPure expand fs item.path.raw).map (·.2))).headD "",
      ?_, (pySorted_min _ hvals).1, (pySorted_min _ hvals).2⟩
    rw [versionPreviewItem_eq expand fs kw item hstat hvers, if_neg hlat, if_pos hmode]
  · intro h1 h2
    rw [versionPreviewItem_eq expand fs kw item hstat hvers, if_neg h1, if_neg h2]

/-- Witness for the amended C2 theorem: one found item with raw path
`b_v001.png` and a file `b_v002.png`, in mode `Latest`. -/
theorem c2_amended_witness :
    (¬ Status.found = Status.expression) ∧
    (¬ getVersionsPure (fun s => s) ["b_v002.png"] "b_v001.png" = []) ∧
    (∃ m, versionPreviewItem (fun s => s) ["b_v002.png"] { mode := "Latest" }
        { parm_name := "f", parm_type := .file, node_path := "/n",
          node_type := { name := "t", category := "c" },
          path := { raw := "b_v001.png", expanded := "b_v001.png" },
          status := .found }
        = Item.set_preview
            { parm_name := "f", parm_type := .file, node_path := "/n",
              node_type := { name := "t", category := "c" },
              path := { raw := "b_v001.png", expanded := "b_v001.png" },
              status := .found } m ∧
        m ∈ (getVersionsPure (fun s => s) ["b_v002.png"] "b_v001.png").map (·.2) ∧
        ∀ x ∈ (getVersionsPure (fun s => s) ["b_v002.png"] "b_v001.png").map (·.2),
          x ≤ m) := by
  refine ⟨by decide, by decide, ?_⟩
  exact ((c2_amended_version_preview (fun s => s) ["b_v002.png"] { mode := "Latest" } []).2
    { parm_name := "f", parm_type := .file, node_path := "/n",
      node_type := { name := "t", category := "c" },
      path := { raw := "b_v001.png", expanded := "b_v001.png" },
      status := .found } (by decide) (by decide)).1 rfl

/-! ## Claim C7 -/

theorem dictGet_some_mem {α β : Type} [BEq α] [LawfulBEq α] {d : List (α × β)}
    {k : α} {v : β} (h : dictGet d k = some v) : (k, v) ∈ d := by
  unfold dictGet at h
  cases hf : d.find? (fun kv => kv.1 == k) with
  | none =>
    rw [hf] at h
    simp at h
  | some kv =>
    rw [hf] at h
    simp only [Option.map_some', Option.some.injEq] at h
    have hmem := List.mem_of_find?_eq_some hf
    have hpred := List.find?_some hf
    rw [beq_iff_eq] at hpred
    obtain ⟨k1, v1⟩ := kv
    simp only at hpred h
    subst hpred
    subst h
    exact hmem

theorem dictGet_append_self {α β : Type} [BEq α] [LawfulBEq α] (d : List (α × β))
    (k : α) (v : β) (h : dictGet d k = none) : dictGet (d ++ [(k, v)]) k = some v := by
  unfold dictGet at *
  induction d with
  | nil => simp
  | cons kv t ih =>
    cases hp : kv.1 == k with
    | true => simp [List.find?_cons, hp] at h
    | false =>
      simp only [List.cons_append, List.find?_cons, hp] at h ⊢
      exact ih h

/-- **C7, counterexample.**  The claim says a call mutates no program state
other than producing its return value.  But `_get_versions` is wrapped in
`functools.lru_cache`: the first call with a given path stores its result
in the cache, a piece of program state that the call visibly mutates. -/
theorem c7_cache_mutation_counterexample :
    (getVersionsCached (fun s => s) [] [] "p").2 = [("p", [])] ∧
    (getVersionsCached (fun s => s) [] [] "p").2 ≠ [] := by
  exact ⟨by decide, by decide⟩

/-- **C7 (amended).**  With the file system held fixed, the utility is
deterministic: `find_files` is embedded as a pure function of the file
system and the path, and a cached `_get_versions` call returns exactly the
uncached computation whenever every cache entry was computed against the
same file system; the call preserves that cache property, and an immediate
second call returns the same result and no longer changes the cache.  What
fails in the claim is only statelessness: the first call mutates the
lru cache (see the counterexample). -/
theorem c7_amended_cached_versions_deterministic (expand : String → String)
    (fs : List String) (cache : List (String × List (Int × String))) (path : String)
    (h : cacheWF expand fs cache) :
    (getVersionsCached expand fs cache path).1 = getVersionsPure expand fs path ∧
    cacheWF expand fs (getVersionsCached expand fs cache path).2 ∧
    getVersionsCached expand fs (getVersionsCached expand fs cache path).2 path
      = ((getVersionsCached expand fs cache path).1,
         (getVersionsCached expand fs cache path).2) := by
  cases hg : dictGet cache path with
  | some v =>
    have hv : v = getVersionsPure expand fs path := h path v (dictGet_some_mem hg)
    have h1 : getVersionsCached expand fs cache path = (v, cache) := by
      unfold getVersionsCached
      rw [hg]
    rw [h1]
    exact ⟨hv.symm ▸ rfl, h, by unfold getVersionsCached; rw [hg]⟩
  | none =>
    have h1 : getVersionsCached expand fs cache path
        = (getVersionsPure expand fs path,
           cache ++ [(path, getVersionsPure expand fs path)]) := by
      unfold getVersionsCached
      rw [hg]
    rw [h1]
    refine ⟨rfl, ?_, ?_⟩
    · intro p v hmem
      rcases List.mem_append.mp hmem with hold | hnew
      · exact h p v hold
      · rw [List.mem_singleton, Prod.mk.injEq] at hnew
        obtain ⟨rfl, rfl⟩ := hnew
        rfl
    · unfold getVersionsCached
      rw [dictGet_append_self cache path (getVersionsPure expand fs path) hg]

/-! ## Claim C5

`ReplacePlugin.preview` (src/src/pathmanager/plugins/replace.py).  The
regex engine is abstracted: `compile` stands for `re.compile` (argument:
pattern string and whether `re.IGNORECASE` is set), `subst` for
`pattern.sub` (pattern, replacement, input), `translate` for
`fnmatch.translate` and `uescape` for
`replace.encode('unicode_escape').decode('ascii')`.  `re.error` is the
`Except.error` outcome. -/

structure ReplaceKwargs where
  search : String := ""
  replace : String := ""
  regex : Bool := false
  match_case : Bool := false
  deriving DecidableEq, Repr

/-- The `try` block of `ReplacePlugin.preview`: compile the pattern
(after `fnmatch.translate(search)[:-2]` in the non-regex branch) and
escape the replacement in the non-regex branch. -/
def replaceCompiled {Pat : Type} (compile : String → Bool → Except Unit Pat)
    (translate : String → String) (uescape : String → String)
    (kw : ReplaceKwargs) : Except Unit (Pat × String) :=
  if kw.regex then
    (compile kw.search (!kw.match_case)).map (fun p => (p, kw.replace))
  else
    (compile ((translate kw.search).dropRight 2) (!kw.match_case)).map
      (fun p => (p, uescape kw.replace))

/-- The loop body of `ReplacePlugin.preview`: a failing substitution
skips the item (`continue`), a successful one calls `set_preview`. -/
def replacePreviewItem {Pat : Type} (subst : Pat → String → String → Except Unit String)
    (pattern : Pat) (repl : String) (item : Item) : Item :=
  match subst pattern repl item.path.raw with
  | .error _ => item
  | .ok path => item.set_preview path

def replacePreview {Pat : Type} (compile : String → Bool → Except Unit Pat)
    (subst : Pat → String → String → Except Unit String)
    (translate : String → String) (uescape : String → String)
    (kw : ReplaceKwargs) (items : List Item) : List Item :=
  if kw.search = "" then items
  else
    match replaceCompiled compile translate uescape kw with
    | .error _ => items
    | .ok (pattern, repl) => items.map (replacePreviewItem subst pattern repl)

/-- **C5 (confirmed).**  `ReplacePlugin.preview` with an empty search
string, or with a search pattern that fails to compile, returns the items
unmodified and raises nothing; when the pattern compiles, every item is
processed independently: an item whose substitution raises a regex error
is left unchanged, while every other item gets its preview set to the
substitution result. -/
theorem c5_replace_error_handling {Pat : Type}
    (compile : String → Bool → Except Unit Pat)
    (subst : Pat → String → String → Except Unit String)
    (translate : String → String) (uescape : String → String)
    (kw : ReplaceKwargs) (items : List Item) :
    (kw.search = "" →
      replacePreview compile subst translate uescape kw items = items) ∧
    (replaceCompiled compile translate uescape kw = .error () →
      replacePreview compile subst translate uescape kw items = items) ∧
    (∀ pattern repl,
      ¬ kw.search = "" →
      replaceCompiled compile translate uescape kw = .ok (pattern, repl) →
      replacePreview compile subst translate uescape kw items
        = items.map (replacePreviewItem subst pattern repl) ∧
      (∀ item, subst pattern repl item.path.raw = .error () →
        replacePreviewItem subst pattern repl item = item) ∧
      (∀ item path, subst pattern repl item.path.raw = .ok path →
        replacePreviewItem subst pattern repl item = item.set_preview path)) := by
  refine ⟨?_, ?_, ?_⟩
  · intro h
    unfold replacePreview
    rw [if_pos h]
  · intro h
    unfold replacePreview
    rw [h]
    split <;> rfl
  · intro pattern repl hne hok
    refine ⟨?_, ?_, ?_⟩
    · unfold replacePreview
      rw [if_neg hne, hok]
    · intro item herr
      unfold replacePreviewItem
      rw [herr]
    · intro item path hsub
      unfold replacePreviewItem
      rw [hsub]

/-- Witness for C5: a concrete engine over `Pat := String` where the
substitution fails exactly on the input `bad`, two items with raw paths
`a` and `bad`, search `x`, replace `y`: the first item's preview is set,
the second item is skipped. -/
theorem c5_witness :
    (¬ ("x" : String) = "") ∧
    replaceCompiled (fun s (_ : Bool) => (Except.ok s : Except Unit String))
      (fun s => s ++ "zz") (fun s => s) { search := "x", replace := "y" }
      = Except.ok ("x", "y") ∧
    replacePreview (fun s (_ : Bool) => (Except.ok s : Except Unit String))
      (fun _ r s => if s = "bad" then Except.error () else Except.ok (r ++ s))
      (fun s => s ++ "zz") (fun s => s) { search := "x", replace := "y" }
      [{ parm_name := "f", parm_type := .file, node_path := "/n",
         node_type := { name := "t", category := "c" },
         path := { raw := "a", expanded := "a" }, status := .found },
       { parm_name := "g", parm_type := .file, node_path := "/n",
         node_type := { name := "t", category := "c" },
         path := { raw := "bad", expanded := "bad" }, status := .missing }]
      = [{ parm_name := "f", parm_type := .file, node_path := "/n",
           node_type := { name := "t", category := "c" },
           path := { raw := "a", expanded := "a" }, status := .found },
         { parm_name := "g", parm_type := .file, node_path := "/n",
           node_type := { name := "t", category := "c" },
           path := { raw := "bad", expanded := "bad" }, status := .missing }].map
          (replacePreviewItem
            (fun _ r s => if s = "bad" then Except.error () else Except.ok (r ++ s))
            "x" "y") := by
  refine ⟨by decide, rfl, ?_⟩
  exact ((c5_replace_error_handling (fun s (_ : Bool) => (Except.ok s : Except Unit String))
    (fun _ r s => if s = "bad" then Except.error () else Except.ok (r ++ s))
    (fun s => s ++ "zz") (fun s => s) { search := "x", replace := "y" }
    [{ parm_name := "f", parm_type := .file, node_path := "/n",
       node_type := { name := "t", category := "c" },
       path := { raw := "a", expanded := "a" }, status := .found },
     { parm_name := "g", parm_type := .file, node_path := "/n",
       node_type := { name := "t", category := "c" },
       path := { raw := "bad", expanded := "bad" }, status := .missing }]).2.2
    "x" "y" (by decide) rfl).1

/-! ## Claim C6

`PluginManager` (src/pathmanager/plugins/manager.py) registers seven
plugins in a dict keyed by each plugin's `name` attribute.  A plugin is
modelled by the qualified class reference the manager instantiates. -/

/-- Modelled from the spec: the manager instantiates `cp.CopyPlugin`, but
the module `cp.py` is not in the tree, so `CopyPlugin.name` cannot be read
from source, and the spec's list of strategies (replace, move, relativize,
version-select, set-directory, find-missing) omits a copy strategy
altogether.  Following the repository's naming convention — `MovePlugin`
in `mv.py` is named `move`, `FindPlugin` in `find.py` is named `find` —
`CopyPlugin` in `cp.py` is modelled with the name `copy`. -/
def copyPluginName : String := "copy"

/-- The `_plugins` dict of `PluginManager._init`, in registration order,
keyed by plugin name. -/
def pluginRegistry : List (String × String) :=
  [("replace", "replace.ReplacePlugin"),
   ("set_directory", "set_directory.SetDirectoryPlugin"),
   (copyPluginName, "cp.CopyPlugin"),
   ("move", "mv.MovePlugin"),
   ("find", "find.FindPlugin"),
   ("version", "version.VersionPlugin"),
   ("relative", "relative.RelativePlugin")]

/-- `PluginManager.get`: `self._plugins.get(name)`. -/
def pluginManagerGet (name : String) : Option String :=
  dictGet pluginRegistry name

theorem dictGet_isSome_iff {α β : Type} [BEq α] [LawfulBEq α] (d : List (α × β))
    (k : α) : (dictGet d k).isSome = true ↔ k ∈ d.map (·.1) := by
  induction d with
  | nil => simp [dictGet]
  | cons kv t ih =>
    cases hp : kv.1 == k with
    | true =>
      have hk : kv.1 = k := beq_iff_eq.mp hp
      simp [dictGet, List.find?_cons, hp, hk, List.mem_cons]
    | false =>
      have hne : ¬ kv.1 = k := by
        intro h
        rw [h] at hp
        simp at hp
      have hstep : dictGet (kv :: t) k = dictGet t k := by
        unfold dictGet
        simp [List.find?_cons, hp]
      rw [hstep, ih, List.map_cons]
      constructor
      · intro h
        exact List.mem_cons.mpr (Or.inr h)
      · intro h
        rcases List.mem_cons.mp h with h1 | h1
        · exact absurd h1.symm hne
        · exact h1

/-- **C6, counterexample.**  The manager registers a seventh plugin,
`cp.CopyPlugin`: `PluginManager.get` succeeds on its name although it is
not one of the six strategies the spec lists (matching each listed
strategy to its registered key: replace, move, relative, version,
set_directory, find). -/
theorem c6_plugin_manager_counterexample :
    (pluginManagerGet "copy").isSome = true ∧
    ¬ "copy" ∈ ["replace", "move", "relative", "version", "set_directory", "find"] := by
  exact ⟨by decide, by decide⟩

/-- **C6 (amended).**  `PluginManager.get(name)` returns a plugin exactly
when `name` is one of the SEVEN registered plugin names: the six strategies
the spec lists (under their registered keys) plus `copy`. -/
theorem c6_amended_plugin_manager_get (name : String) :
    (pluginManagerGet name).isSome = true ↔
      name ∈ ["replace", "set_directory", "copy", "move", "find", "version",
              "relative"] := by
  rw [pluginManagerGet, dictGet_isSome_iff]
  exact Iff.rfl

/-! ## JSON model (json.dump / json.load) for Storage (src/pathmanager/storage.py)

Python values that can reach `json.dump` are modelled by `PyVal` (lists
and dict entry lists as the mutual types `PyList`/`PyEntries`); dict keys
by `PyKey` (the key types `json.dump` coerces to strings without
`skipkeys`); an object the encoder cannot serialize (a set, a Qt object,
...) by `pyobject`, on which `json.dump` raises `TypeError`.  Floats are
outside the model: the program's state holds no floats, and the parser
rejects them.  `json.dump(data, file, indent=2)` output is produced by
`dumpV`; `json.load` by `pyLoad` (strict control characters, surrogate
pair recombination; a lone surrogate escape is rejected because a Lean
`Char` cannot hold it). -/

inductive PyKey where
  | kstr (s : String)
  | kint (n : Int)
  | kbool (b : Bool)
  | knull
  deriving DecidableEq, Repr

mutual
inductive PyVal where
  | pynull
  | pybool (b : Bool)
  | pyint (n : Int)
  | pystr (s : String)
  | pylist (xs : PyList)
  | pydict (kvs : PyEntries)
  | pyobject (oid : Nat)
  deriving DecidableEq, Repr
inductive PyList where
  | nil
  | cons (x : PyVal) (xs : PyList)
  deriving DecidableEq, Repr
inductive PyEntries where
  | nil
  | cons (k : PyKey) (v : PyVal) (kvs : PyEntries)
  deriving DecidableEq, Repr
end

def PyList.ofList : List PyVal → PyList
  | [] => .nil
  | x :: xs => .cons x (PyList.ofList xs)

def PyEntries.ofList : List (PyKey × PyVal) → PyEntries
  | [] => .nil
  | (k, v) :: kvs => .cons k v (PyEntries.ofList kvs)

def entryKeys : PyEntries → List PyKey
  | .nil => []
  | .cons k _ kvs => k :: entryKeys kvs

inductive PyErr where
  | typeError
  | valueError
  | oserror
  deriving DecidableEq, Repr

/-- `'\n'` plus the two-space-per-level indentation of `indent=2`. -/
def nlIndent (lvl : Nat) : List Char := '\n' :: List.replicate (2 * lvl) ' '

def hexDigit (n : Nat) : Char :=
  if n < 10 then Char.ofNat (48 + n) else Char.ofNat (87 + n)

def toHex4 (n : Nat) : List Char :=
  [hexDigit (n / 4096 % 16), hexDigit (n / 256 % 16), hexDigit (n / 16 % 16),
   hexDigit (n % 16)]

/-- One character of `json.encoder.py_encode_basestring_ascii`: the named
escapes, `\uXXXX` for other control and non-ASCII characters, surrogate
pairs above the BMP, everything in lowercase hex. -/
def escChar (c : Char) : List Char :=
  if c = '"' then ['\\', '"']
  else if c = '\\' then ['\\', '\\']
  else if c = '\x08' then ['\\', 'b']
  else if c = '\x0c' then ['\\', 'f']
  else if c = '\n' then ['\\', 'n']
  else if c = '\x0d' then ['\\', 'r']
  else if c = '\t' then ['\\', 't']
  else if c.toNat < 0x20 then '\\' :: 'u' :: toHex4 c.toNat
  else if c.toNat < 0x7f then [c]
  else if c.toNat < 0x10000 then '\\' :: 'u' :: toHex4 c.toNat
  else
    ('\\' :: 'u' :: toHex4 (0xD800 + (c.toNat - 0x10000) / 1024)) ++
      ('\\' :: 'u' :: toHex4 (0xDC00 + (c.toNat - 0x10000) % 1024))

def quoteAscii (cs : List Char) : List Char := '"' :: cs.flatMap escChar ++ ['"']

/-- Python's `str` of an int (the encoder emits it verbatim). -/
def intChars (n : Int) : List Char :=
  if n < 0 then '-' :: natChars n.natAbs else natChars n.natAbs

/-- Key coercion of `json.dump` (no `sort_keys`, no `skipkeys`): strings
verbatim, bools to `true`/`false`, `None` to `null`, ints to `str`. -/
def keyChars : PyKey → List Char
  | .kstr s => s.data
  | .kint n => intChars n
  | .kbool true => "true".data
  | .kbool false => "false".data
  | .knull => "null".data

mutual
/-- `json.dump(v, file, indent=2)` at indentation level `lvl`. -/
def dumpV (lvl : Nat) : PyVal → Except PyErr (List Char)
  | .pynull => .ok "null".data
  | .pybool true => .ok "true".data
  | .pybool false => .ok "false".data
  | .pyint n => .ok (intChars n)
  | .pystr s => .ok (quoteAscii s.data)
  | .pyobject _ => .error .typeError
  | .pylist .nil => .ok ['[', ']']
  | .pylist (.cons x xs) =>
    match dumpL (lvl+1) (.cons x xs) with
    | .error e => .error e
    | .ok body => .ok ('[' :: nlIndent (lvl+1) ++ body ++ nlIndent lvl ++ [']'])
  | .pydict .nil => .ok ['{', '}']
  | .pydict (.cons k v kvs) =>
    match dumpE (lvl+1) (.cons k v kvs) with
    | .error e => .error e
    | .ok body => .ok ('{' :: nlIndent (lvl+1) ++ body ++ nlIndent lvl ++ ['}'])

/-- The comma-newline-joined items of a list body. -/
def dumpL (lvl : Nat) : PyList → Except PyErr (List Char)
  | .nil => .ok []
  | .cons x .nil => dumpV lvl x
  | .cons x (.cons y ys) =>
    match dumpV lvl x with
    | .error e => .error e
    | .ok o =>
      match dumpL lvl (.cons y ys) with
      | .error e => .error e
      | .ok os => .ok (o ++ ',' :: nlIndent lvl ++ os)

/-- The comma-newline-joined `"key": value` entries of a dict body. -/
def dumpE (lvl : Nat) : PyEntries → Except PyErr (List Char)
  | .nil => .ok []
  | .cons k v .nil =>
    match dumpV lvl v with
    | .error e => .error e
    | .ok o => .ok (quoteAscii (keyChars k) ++ ':' :: ' ' :: o)
  | .cons k v (.cons k2 v2 kvs) =>
    match dumpV lvl v with
    | .error e => .error e
    | .ok o =>
      match dumpE lvl (.cons k2 v2 kvs) with
      | .error e => .error e
      | .ok os =>
        .ok (quoteAscii (keyChars k) ++ ':' :: ' ' :: o ++ ',' :: nlIndent lvl ++ os)
end

def pyDump (v : PyVal) : Except PyErr (List Char) := dumpV 0 v

/-! ### json.load -/

def isWsCh (c : Char) : Bool := c = ' ' ∨ c = '\t' ∨ c = '\n' ∨ c = '\x0d'

def skipWs : List Char → List Char
  | [] => []
  | c :: cs => if isWsCh c then skipWs cs else c :: cs

def hexVal (c : Char) : Option Nat :=
  if '0' ≤ c ∧ c ≤ '9' then some (c.toNat - 48)
  else if 'a' ≤ c ∧ c ≤ 'f' then some (c.toNat - 87)
  else if 'A' ≤ c ∧ c ≤ 'F' then some (c.toNat - 55)
  else none

def hex4 (a b c d : Char) : Option Nat :=
  match hexVal a, hexVal b, hexVal c, hexVal d with
  | some x, some y, some z, some w => some (4096 * x + 256 * y + 16 * z + w)
  | _, _, _, _ => none

/-- JSON string body scanner (`json.decoder.py_scanstring`, strict): the
opening quote is already consumed; control characters are rejected, the
escapes are decoded, `\uXXXX` surrogate pairs are recombined. -/
def parseStrF : Nat → List Char → List Char → Except Unit (String × List Char)
  | 0, _, _ => .error ()
  | fuel+1, acc, cs =>
    match cs with
    | [] => .error ()
    | c :: rest =>
      if c = '"' then .ok (String.mk acc, rest)
      else if c = '\\' then
        match rest with
        | [] => .error ()
        | e :: r2 =>
          if e = '"' then parseStrF fuel (acc ++ ['"']) r2
          else if e = '\\' then parseStrF fuel (acc ++ ['\\']) r2
          else if e = '/' then parseStrF fuel (acc ++ ['/']) r2
          else if e = 'b' then parseStrF fuel (acc ++ ['\x08']) r2
          else if e = 'f' then parseStrF fuel (acc ++ ['\x0c']) r2
          else if e = 'n' then parseStrF fuel (acc ++ ['\n']) r2
          else if e = 'r' then parseStrF fuel (acc ++ ['\x0d']) r2
          else if e = 't' then parseStrF fuel (acc ++ ['\t']) r2
          else if e = 'u' then
            match r2 with
            | a :: b :: c2 :: d :: r3 =>
              match hex4 a b c2 d with
              | none => .error ()
              | some n =>
                if n < 0xD800 ∨ 0xE000 ≤ n then parseStrF fuel (acc ++ [Char.ofNat n]) r3
                else if n < 0xDC00 then
                  match r3 with
                  | '\\' :: 'u' :: a2 :: b2 :: c3 :: d2 :: r4 =>
                    match hex4 a2 b2 c3 d2 with
                    | none => .error ()
                    | some m =>
                      if 0xDC00 ≤ m ∧ m < 0xE000 then
                        parseStrF fuel
                          (acc ++
                            [Char.ofNat (0x10000 + (n - 0xD800) * 1024 + (m - 0xDC00))])
                          r4
                      else .error ()
                  | _ => .error ()
                else .error ()
            | _ => .error ()
          else .error ()
      else if c.toNat < 0x20 then .error ()
      else parseStrF fuel (acc ++ [c]) rest

/-- Integer literal per the JSON grammar: no leading zero; a following
`.`/`e`/`E` would make it a float, which the model rejects. -/
def parseNat (cs : List Char) : Except Unit (Nat × List Char) :=
  let digits := cs.takeWhile isDigitCh
  let rest := cs.dropWhile isDigitCh
  if digits = [] then .error ()
  else if digits.length > 1 ∧ digits.head? = some '0' then .error ()
  else
    match rest with
    | c :: _ =>
      if c = '.' ∨ c = 'e' ∨ c = 'E' then .error () else .ok (digitsVal digits, rest)
    | [] => .ok (digitsVal digits, rest)

def parseNum (cs : List Char) : Except Unit (PyVal × List Char) :=
  if cs.head? = some '-' then
    match parseNat cs.tail with
    | .error e => .error e
    | .ok (n, r) => .ok (.pyint (-(n : Int)), r)
  else
    match parseNat cs with
    | .error e => .error e
    | .ok (n, r) => .ok (.pyint (n : Int), r)

mutual
/-- One JSON value (with leading whitespace), returning it and the rest
of the input.  Fuel decreases on every mutual call; twice the input
length plus two is always enough. -/
def parseValue : Nat → List Char → Except Unit (PyVal × List Char)
  | 0, _ => .error ()
  | fuel+1, cs =>
    match skipWs cs with
    | [] => .error ()
    | c :: rest =>
      if c = 'n' then
        match rest with
        | 'u' :: 'l' :: 'l' :: r => .ok (.pynull, r)
        | _ => .error ()
      else if c = 't' then
        match rest with
        | 'r' :: 'u' :: 'e' :: r => .ok (.pybool true, r)
        | _ => .error ()
      else if c = 'f' then
        match rest with
        | 'a' :: 'l' :: 's' :: 'e' :: r => .ok (.pybool false, r)
        | _ => .error ()
      else if c = '"' then
        match parseStrF fuel [] rest with
        | .error e => .error e
        | .ok (s, r) => .ok (.pystr s, r)
      else if c = '[' then
        let cs2 := skipWs rest
        if cs2.head? = some ']' then .ok (.pylist .nil, cs2.tail)
        else parseElems fuel cs2 []
      else if c = '{' then
        let cs2 := skipWs rest
        if cs2.head? = some '}' then .ok (.pydict .nil, cs2.tail)
        else parseEntries fuel cs2 []
      else if c = '-' ∨ isDigitCh c = true then parseNum (c :: rest)
      else .error ()

def parseElems : Nat → List Char → List PyVal → Except Unit (PyVal × List Char)
  | 0, _, _ => .error ()
  | fuel+1, cs, acc =>
    match parseValue fuel cs with
    | .error e => .error e
    | .ok (v, rest) =>
      let r2 := skipWs rest
      if r2.head? = some ',' then parseElems fuel r2.tail (acc ++ [v])
      else if r2.head? = some ']' then .ok (.pylist (PyList.ofList (acc ++ [v])), r2.tail)
      else .error ()

def parseEntries : Nat → List Char → List (PyKey × PyVal) →
    Except Unit (PyVal × List Char)
  | 0, _, _ => .error ()
  | fuel+1, cs, acc =>
    match skipWs cs with
    | '"' :: r1 =>
      match parseStrF fuel [] r1 with
      | .error e => .error e
      | .ok (k, r2) =>
        let r3 := skipWs r2
        if r3.head? = some ':' then
          match parseValue fuel r3.tail with
          | .error e => .error e
          | .ok (v, r4) =>
            let r5 := skipWs r4
            if r5.head? = some ',' then
              parseEntries fuel r5.tail (acc ++ [(PyKey.kstr k, v)])
            else if r5.head? = some '}' then
              .ok (.pydict (PyEntries.ofList (acc ++ [(PyKey.kstr k, v)])), r5.tail)
            else .error ()
        else .error ()
    | _ => .error ()
end

/-- `json.load`: one value, then only whitespace to the end. -/
def pyLoad (cs : List Char) : Except Unit PyVal :=
  match parseValue (2 * cs.length + 2) cs with
  | .error _ => .error ()
  | .ok (v, rest) => if skipWs rest = [] then .ok v else .error ()

/-! ### Storage (src/pathmanager/storage.py) -/

inductive PyResult (α : Type) where
  | ret (a : α)
  | raised (e : PyErr)
  deriving DecidableEq, Repr

/-- `JSONStorage.read`: `json.load` on the file's content. -/
def JSONStorage.read (content : List Char) : Except Unit PyVal := pyLoad content

/-- `JSONStorage.write`: `makedirs`/`open` may raise `OSError` (the
`fsOk` flag), then `json.dump(state, file, indent=2)` runs. -/
def JSONStorage.write (fsOk : Bool) (state : PyVal) : Except PyErr (List Char) :=
  if fsOk then pyDump state else .error .oserror

/-- The file-system condition `Storage.get_state` finds: the state file
is missing or unreadable (`OSError`), or holds these characters. -/
inductive ReadOutcome where
  | missing
  | content (cs : List Char)

/-- `Storage.get_state`: `except OSError` and `except json.JSONDecodeError`
both fall through to `return {}`. -/
def Storage.get_state : ReadOutcome → PyResult PyVal
  | .missing => .ret (.pydict .nil)
  | .content cs =>
    match JSONStorage.read cs with
    | .ok v => .ret v
    | .error _ => .ret (.pydict .nil)

/-- `Storage.set_state`: catches `OSError` and `ValueError` only; a
`TypeError` from `json.dump` propagates.  Returns the written content so
a later read can be chained. -/
def Storage.set_state (fsOk : Bool) (state : PyVal) : PyResult (Option (List Char)) :=
  match JSONStorage.write fsOk state with
  | .ok out => .ret (some out)
  | .error .oserror => .ret none
  | .error .valueError => .ret none
  | .error .typeError => .raised .typeError

mutual
/-- The states that are honest Python dict states and round-trip: every
dict (at every level) has distinct string keys, and no unserializable
object appears. -/
inductive GoodVal : PyVal → Prop where
  | null : GoodVal .pynull
  | bool (b : Bool) : GoodVal (.pybool b)
  | int (n : Int) : GoodVal (.pyint n)
  | str (s : String) : GoodVal (.pystr s)
  | list (xs : PyList) (h : GoodList xs) : GoodVal (.pylist xs)
  | dict (kvs : PyEntries) (h : GoodEntries kvs) (hnd : (entryKeys kvs).Nodup) :
      GoodVal (.pydict kvs)
inductive GoodList : PyList → Prop where
  | nil : GoodList .nil
  | cons (x : PyVal) (xs : PyList) (hx : GoodVal x) (hxs : GoodList xs) :
      GoodList (.cons x xs)
inductive GoodEntries : PyEntries → Prop where
  | nil : GoodEntries .nil
  | cons (s : String) (v : PyVal) (kvs : PyEntries) (hv : GoodVal v)
      (hkvs : GoodEntries kvs) : GoodEntries (.cons (.kstr s) v kvs)
end

instance {ε α : Type} [DecidableEq ε] [DecidableEq α] : DecidableEq (Except ε α) := fun
  | .error a, .error b =>
    if h : a = b then .isTrue (by rw [h]) else .isFalse (by simp [h])
  | .error _, .ok _ => .isFalse (by simp)
  | .ok _, .error _ => .isFalse (by simp)
  | .ok a, .ok b =>
    if h : a = b then .isTrue (by rw [h]) else .isFalse (by simp [h])

/-! ### Helper lemmas for the dump/load round trip -/

mutual
def pySize : PyVal → Nat
  | .pynull => 1
  | .pybool _ => 1
  | .pyint _ => 1
  | .pystr _ => 1
  | .pyobject _ => 1
  | .pylist xs => 1 + pyListSize xs
  | .pydict kvs => 1 + pyEntriesSize kvs
def pyListSize : PyList → Nat
  | .nil => 1
  | .cons x xs => 1 + pySize x + pyListSize xs
def pyEntriesSize : PyEntries → Nat
  | .nil => 1
  | .cons _ v kvs => 1 + pySize v + pyEntriesSize kvs
end

def PyList.toList : PyList → List PyVal
  | .nil => []
  | .cons x xs => x :: PyList.toList xs

def PyEntries.toList : PyEntries → List (PyKey × PyVal)
  | .nil => []
  | .cons k v kvs => (k, v) :: PyEntries.toList kvs

theorem pyList_ofList_toList : ∀ xs : PyList, PyList.ofList (PyList.toList xs) = xs
  | .nil => rfl
  | .cons x xs => by
    rw [PyList.toList, PyList.ofList, pyList_ofList_toList xs]

theorem pyEntries_ofList_toList :
    ∀ kvs : PyEntries, PyEntries.ofList (PyEntries.toList kvs) = kvs
  | .nil => rfl
  | .cons k v kvs => by
    rw [PyEntries.toList, PyEntries.ofList, pyEntries_ofList_toList kvs]

theorem pySize_pos (v : PyVal) : 1 ≤ pySize v := by
  cases v <;> simp [pySize]

theorem pyListSize_pos (xs : PyList) : 1 ≤ pyListSize xs := by
  cases xs <;> simp [pyListSize] <;> omega

theorem pyEntriesSize_pos (kvs : PyEntries) : 1 ≤ pyEntriesSize kvs := by
  cases kvs <;> simp [pyEntriesSize] <;> omega

theorem skipWs_cons_ws {c : Char} (cs : List Char) (h : isWsCh c = true) :
    skipWs (c :: cs) = skipWs cs := by
  rw [skipWs, if_pos h]

theorem skipWs_cons_not {c : Char} (cs : List Char) (h : isWsCh c = false) :
    skipWs (c :: cs) = c :: cs := by
  rw [skipWs, if_neg (by rw [h]; exact Bool.false_ne_true)]

theorem skipWs_append_ws (pre cs : List Char) (h : ∀ c ∈ pre, isWsCh c = true) :
    skipWs (pre ++ cs) = skipWs cs := by
  induction pre with
  | nil => rfl
  | cons c t ih =>
    rw [List.cons_append, skipWs_cons_ws _ (h c (by simp))]
    exact ih (fun x hx => h x (by simp [hx]))

theorem nlIndent_ws (lvl : Nat) : ∀ c ∈ nlIndent lvl, isWsCh c = true := by
  intro c hc
  rw [nlIndent, List.mem_cons] at hc
  rcases hc with h | h
  · subst h; decide
  · rw [List.eq_of_mem_replicate h]; decide

theorem skipWs_nlIndent (lvl : Nat) (cs : List Char) :
    skipWs (nlIndent lvl ++ cs) = skipWs cs :=
  skipWs_append_ws _ cs (nlIndent_ws lvl)

theorem nlIndent_length_pos (lvl : Nat) : 1 ≤ (nlIndent lvl).length := by
  rw [nlIndent]; simp

theorem parseValue_congr (fuel : Nat) (cs1 cs2 : List Char)
    (h : skipWs cs1 = skipWs cs2) : parseValue fuel cs1 = parseValue fuel cs2 := by
  cases fuel with
  | zero => rfl
  | succ f => simp only [parseValue, h]

theorem parseElems_congr (fuel : Nat) (cs1 cs2 : List Char) (acc : List PyVal)
    (h : skipWs cs1 = skipWs cs2) : parseElems fuel cs1 acc = parseElems fuel cs2 acc := by
  cases fuel with
  | zero => rfl
  | succ f => simp only [parseElems, parseValue_congr f cs1 cs2 h]

theorem parseEntries_congr (fuel : Nat) (cs1 cs2 : List Char)
    (acc : List (PyKey × PyVal)) (h : skipWs cs1 = skipWs cs2) :
    parseEntries fuel cs1 acc = parseEntries fuel cs2 acc := by
  cases fuel with
  | zero => rfl
  | succ f => simp only [parseEntries, h]

theorem toNat_ofNat_valid (n : Nat) (h : n.isValidChar) : (Char.ofNat n).toNat = n := by
  simp only [Char.ofNat, h, dif_pos, Char.ofNatAux, Char.toNat, UInt32.toNat,
    BitVec.toNat_ofNatLt]

theorem hexVal_hexDigit {m : Nat} (h : m < 16) : hexVal (hexDigit m) = some m := by
  interval_cases m <;> decide

theorem hexDecomp (m : Nat) (h : m < 65536) :
    4096 * (m / 4096 % 16) + 256 * (m / 256 % 16) + 16 * (m / 16 % 16) + m % 16 = m := by
  have ha : m / 16 / 16 = m / 256 := by
    rw [Nat.div_div_eq_div_mul]
  have hb : m / 16 / 16 / 16 = m / 4096 := by
    rw [Nat.div_div_eq_div_mul, Nat.div_div_eq_div_mul]
  rw [← ha, ← hb]
  omega

theorem hex4_toHex4 {m : Nat} (h : m < 65536) :
    hex4 (hexDigit (m / 4096 % 16)) (hexDigit (m / 256 % 16)) (hexDigit (m / 16 % 16))
      (hexDigit (m % 16)) = some m := by
  rw [hex4, hexVal_hexDigit (Nat.mod_lt _ (by norm_num)),
    hexVal_hexDigit (Nat.mod_lt _ (by norm_num)),
    hexVal_hexDigit (Nat.mod_lt _ (by norm_num)),
    hexVal_hexDigit (Nat.mod_lt _ (by norm_num))]
  show some (4096 * (m / 4096 % 16) + 256 * (m / 256 % 16) + 16 * (m / 16 % 16) + m % 16)
      = some m
  rw [hexDecomp m h]

theorem escChar_length_pos (c : Char) : 1 ≤ (escChar c).length := by
  rw [escChar]
  by_cases h1 : c = '"'
  · rw [if_pos h1]; decide
  rw [if_neg h1]
  by_cases h2 : c = '\\'
  · rw [if_pos h2]; decide
  rw [if_neg h2]
  by_cases h3 : c = '\x08'
  · rw [if_pos h3]; decide
  rw [if_neg h3]
  by_cases h4 : c = '\x0c'
  · rw [if_pos h4]; decide
  rw [if_neg h4]
  by_cases h5 : c = '\n'
  · rw [if_pos h5]; decide
  rw [if_neg h5]
  by_cases h6 : c = '\x0d'
  · rw [if_pos h6]; decide
  rw [if_neg h6]
  by_cases h7 : c = '\t'
  · rw [if_pos h7]; decide
  rw [if_neg h7]
  by_cases h8 : c.toNat < 32
  · rw [if_pos h8]
    simp [toHex4]
  rw [if_neg h8]
  by_cases h9 : c.toNat < 127
  · rw [if_pos h9]; simp
  rw [if_neg h9]
  by_cases h10 : c.toNat < 65536
  · rw [if_pos h10]
    simp [toHex4]
  rw [if_neg h10]
  simp [toHex4]

theorem flatMap_escChar_length (cs : List Char) :
    cs.length ≤ (cs.flatMap escChar).length := by
  induction cs with
  | nil => simp
  | cons c t ih =>
    rw [List.flatMap_cons, List.length_append, List.length_cons]
    have := escChar_length_pos c
    omega

theorem natChars_head_ne_zero (n : Nat) (hn : n ≠ 0) : (natChars n).head? ≠ some '0' := by
  induction n using Nat.strongRecOn with
  | _ n ih =>
    rw [natChars_step]
    by_cases h : n < 10
    · rw [if_pos h, List.nil_append, List.head?_cons]
      have h9 : n ≤ 9 := by omega
      have h1 : 1 ≤ n := by omega
      intro hc
      rw [Option.some.injEq] at hc
      rw [Nat.mod_eq_of_lt h] at hc
      interval_cases n <;> simp [digitChar10] at hc <;> exact absurd hc (by decide)
    · rw [if_neg h]
      cases hnc : natChars (n / 10) with
      | nil => exact absurd hnc (natChars_ne_nil _)
      | cons d ds =>
        rw [List.cons_append, List.head?_cons]
        have := ih (n / 10) (by omega) (by omega)
        rw [hnc, List.head?_cons] at this
        exact this

theorem quoteAscii_append (cs rest : List Char) :
    quoteAscii cs ++ rest = '"' :: (cs.flatMap escChar ++ '"' :: rest) := by
  simp [quoteAscii]

/-! ### Round trip of the string escaper and scanner -/

theorem parseStrF_u_step (f : Nat) (acc : List Char) (n : Nat) (tail : List Char)
    (hn : n < 65536) (hok : n < 55296 ∨ 57344 ≤ n) :
    parseStrF (f+1) acc ('\\' :: 'u' :: (toHex4 n ++ tail))
      = parseStrF f (acc ++ [Char.ofNat n]) tail := by
  simp only [toHex4, List.cons_append, List.nil_append]
  simp [parseStrF, hex4_toHex4 hn, hok]

theorem parseStrF_surrogate_step (f : Nat) (acc : List Char) (hi lo : Nat)
    (tail : List Char) (hhi1 : 55296 ≤ hi) (hhi2 : hi < 56320) (hlo1 : 56320 ≤ lo)
    (hlo2 : lo < 57344) :
    parseStrF (f+1) acc ('\\' :: 'u' :: (toHex4 hi ++ ('\\' :: 'u' :: (toHex4 lo ++ tail))))
      = parseStrF f (acc ++ [Char.ofNat (65536 + (hi - 55296) * 1024 + (lo - 56320))])
          tail := by
  simp only [toHex4, List.cons_append, List.nil_append]
  simp [parseStrF, hex4_toHex4 (show hi < 65536 by omega),
    hex4_toHex4 (show lo < 65536 by omega),
    show ¬(hi < 55296 ∨ 57344 ≤ hi) by omega, show hi < 56320 from hhi2,
    show 56320 ≤ lo from hlo1, show lo < 57344 from hlo2]

theorem parseStrF_escape (s : List Char) : ∀ fuel acc rest, s.length + 1 ≤ fuel →
    parseStrF fuel acc (s.flatMap escChar ++ '"' :: rest)
      = .ok (String.mk (acc ++ s), rest) := by
  induction s with
  | nil =>
    intro fuel acc rest hf
    obtain ⟨f, rfl⟩ : ∃ f, fuel = f + 1 := ⟨fuel - 1, by omega⟩
    simp [parseStrF]
  | cons c cs ih =>
    intro fuel acc rest hf
    obtain ⟨f, rfl⟩ : ∃ f, fuel = f + 1 := ⟨fuel - 1, by omega⟩
    have hf' : cs.length + 1 ≤ f := by
      rw [List.length_cons] at hf
      omega
    rw [List.flatMap_cons, List.append_assoc]
    by_cases h1 : c = '"'
    · subst h1
      have hstep : parseStrF (f+1) acc (escChar '"' ++ (cs.flatMap escChar ++ '"' :: rest))
          = parseStrF f (acc ++ ['"']) (cs.flatMap escChar ++ '"' :: rest) := by
        simp [parseStrF, escChar]
      rw [hstep, ih f (acc ++ ['"']) rest hf']
      simp
    by_cases h2 : c = '\\'
    · subst h2
      have hstep : parseStrF (f+1) acc (escChar '\\' ++ (cs.flatMap escChar ++ '"' :: rest))
          = parseStrF f (acc ++ ['\\']) (cs.flatMap escChar ++ '"' :: rest) := by
        simp [parseStrF, escChar]
      rw [hstep, ih f (acc ++ ['\\']) rest hf']
      simp
    by_cases h3 : c = '\x08'
    · subst h3
      have hstep : parseStrF (f+1) acc
          (escChar '\x08' ++ (cs.flatMap escChar ++ '"' :: rest))
          = parseStrF f (acc ++ ['\x08']) (cs.flatMap escChar ++ '"' :: rest) := by
        simp [parseStrF, escChar]
      rw [hstep, ih f (acc ++ ['\x08']) rest hf']
      simp
    by_cases h4 : c = '\x0c'
    · subst h4
      have hstep : parseStrF (f+1) acc
          (escChar '\x0c' ++ (cs.flatMap escChar ++ '"' :: rest))
          = parseStrF f (acc ++ ['\x0c']) (cs.flatMap escChar ++ '"' :: rest) := by
        simp [parseStrF, escChar]
      rw [hstep, ih f (acc ++ ['\x0c']) rest hf']
      simp
    by_cases h5 : c = '\n'
    · subst h5
      have hstep : parseStrF (f+1) acc (escChar '\n' ++ (cs.flatMap escChar ++ '"' :: rest))
          = parseStrF f (acc ++ ['\n']) (cs.flatMap escChar ++ '"' :: rest) := by
        simp [parseStrF, escChar]
      rw [hstep, ih f (acc ++ ['\n']) rest hf']
      simp
    by_cases h6 : c = '\x0d'
    · subst h6
      have hstep : parseStrF (f+1) acc
          (escChar '\x0d' ++ (cs.flatMap escChar ++ '"' :: rest))
          = parseStrF f (acc ++ ['\x0d']) (cs.flatMap escChar ++ '"' :: rest) := by
        simp [parseStrF, escChar]
      rw [hstep, ih f (acc ++ ['\x0d']) rest hf']
      simp
    by_cases h7 : c = '\t'
    · subst h7
      have hstep : parseStrF (f+1) acc (escChar '\t' ++ (cs.flatMap escChar ++ '"' :: rest))
          = parseStrF f (acc ++ ['\t']) (cs.flatMap escChar ++ '"' :: rest) := by
        simp [parseStrF, escChar]
      rw [hstep, ih f (acc ++ ['\t']) rest hf']
      simp
    by_cases h8 : c.toNat < 32
    · have hesc : escChar c = '\\' :: 'u' :: toHex4 c.toNat := by
        rw [escChar, if_neg h1, if_neg h2, if_neg h3, if_neg h4, if_neg h5, if_neg h6,
          if_neg h7, if_pos h8]
      rw [hesc, List.cons_append, List.cons_append,
        parseStrF_u_step f acc c.toNat _ (by omega) (by omega), Char.ofNat_toNat,
        ih f (acc ++ [c]) rest hf']
      simp
    by_cases h9 : c.toNat < 127
    · have hesc : escChar c = [c] := by
        rw [escChar, if_neg h1, if_neg h2, if_neg h3, if_neg h4, if_neg h5, if_neg h6,
          if_neg h7, if_neg h8, if_pos h9]
      rw [hesc]
      have hstep : parseStrF (f+1) acc ([c] ++ (cs.flatMap escChar ++ '"' :: rest))
          = parseStrF f (acc ++ [c]) (cs.flatMap escChar ++ '"' :: rest) := by
        rw [List.singleton_append]
        simp only [parseStrF]
        rw [if_neg h1, if_neg h2, if_neg h8]
      rw [hstep, ih f (acc ++ [c]) rest hf']
      simp
    by_cases h10 : c.toNat < 65536
    · have hok : c.toNat < 55296 ∨ 57344 ≤ c.toNat := by
        rcases c.valid with hv | hv
        · exact Or.inl hv
        · have hx : 57343 < c.toNat := hv.1
          omega
      have hesc : escChar c = '\\' :: 'u' :: toHex4 c.toNat := by
        rw [escChar, if_neg h1, if_neg h2, if_neg h3, if_neg h4, if_neg h5, if_neg h6,
          if_neg h7, if_neg h8, if_neg h9, if_pos h10]
      rw [hesc, List.cons_append, List.cons_append,
        parseStrF_u_step f acc c.toNat _ h10 hok, Char.ofNat_toNat,
        ih f (acc ++ [c]) rest hf']
      simp
    · have hbig : c.toNat < 1114112 := by
        rcases c.valid with hv | hv
        · have hx : c.toNat < 55296 := hv
          omega
        · exact hv.2
      have hesc : escChar c
          = ('\\' :: 'u' :: toHex4 (55296 + (c.toNat - 65536) / 1024)) ++
              ('\\' :: 'u' :: toHex4 (56320 + (c.toNat - 65536) % 1024)) := by
        rw [escChar, if_neg h1, if_neg h2, if_neg h3, if_neg h4, if_neg h5, if_neg h6,
          if_neg h7, if_neg h8, if_neg h9, if_neg h10]
      rw [hesc]
      have hshape :
          (('\\' :: 'u' :: toHex4 (55296 + (c.toNat - 65536) / 1024)) ++
              ('\\' :: 'u' :: toHex4 (56320 + (c.toNat - 65536) % 1024))) ++
            (cs.flatMap escChar ++ '"' :: rest)
          = '\\' :: 'u' :: (toHex4 (55296 + (c.toNat - 65536) / 1024) ++
              ('\\' :: 'u' :: (toHex4 (56320 + (c.toNat - 65536) % 1024) ++
                (cs.flatMap escChar ++ '"' :: rest)))) := by
        simp [List.append_assoc]
      rw [hshape]
      have hdiv : (c.toNat - 65536) / 1024 < 1024 := by omega
      have hmod : (c.toNat - 65536) % 1024 < 1024 := Nat.mod_lt _ (by norm_num)
      rw [parseStrF_surrogate_step f acc _ _ _ (by omega) (by omega) (by omega) (by omega)]
      have harg : 65536 + (55296 + (c.toNat - 65536) / 1024 - 55296) * 1024 +
          (56320 + (c.toNat - 65536) % 1024 - 56320) = c.toNat := by
        have e := Nat.div_add_mod (c.toNat - 65536) 1024
        omega
      rw [harg, Char.ofNat_toNat, ih f (acc ++ [c]) rest hf']
      simp

theorem parseStr_quote (s : String) (fuel : Nat) (rest : List Char)
    (hf : s.data.length + 1 ≤ fuel) :
    parseStrF fuel [] (s.data.flatMap escChar ++ '"' :: rest) = .ok (s, rest) := by
  rw [parseStrF_escape s.data fuel [] rest hf, List.nil_append]

/-! ### Round trip of printed integers -/

/-- In the printed output, a value is always followed by end of input or
by `,`, `]`, `}` or a newline; after a printed integer none of these can
extend the number. -/
def stopperOk : List Char → Bool
  | [] => true
  | c :: _ => (c == ',') || (c == ']') || (c == '}') || (c == '\n')

theorem stopper_facts (r : List Char) (h : stopperOk r = true) :
    ∀ c, r.head? = some c → isDigitCh c = false ∧ c ≠ '.' ∧ c ≠ 'e' ∧ c ≠ 'E' := by
  cases r with
  | nil =>
    intro c hc
    simp at hc
  | cons x t =>
    intro c hc
    rw [List.head?_cons, Option.some.injEq] at hc
    subst hc
    rw [stopperOk] at h
    simp only [Bool.or_eq_true, beq_iff_eq] at h
    rcases h with ((h | h) | h) | h <;> subst h <;>
      exact ⟨by decide, by decide, by decide, by decide⟩

theorem takeWhile_digits_stop (ds : List Char) (hds : ∀ c ∈ ds, isDigitCh c = true)
    (r : List Char) (hr : ∀ c, r.head? = some c → isDigitCh c = false) :
    (ds ++ r).takeWhile isDigitCh = ds ∧ (ds ++ r).dropWhile isDigitCh = r := by
  induction ds with
  | nil =>
    cases r with
    | nil => simp
    | cons x t =>
      have hx := hr x (by rw [List.head?_cons])
      constructor
      · simp [List.takeWhile_cons, hx]
      · simp [List.dropWhile_cons, hx]
  | cons c t ih =>
    have hc : isDigitCh c = true := hds c (by simp)
    obtain ⟨h1, h2⟩ := ih (fun x hx => hds x (by simp [hx]))
    constructor
    · simp [List.takeWhile_cons, hc, h1]
    · simp [List.dropWhile_cons, hc, h2]

theorem parseNat_natChars (n : Nat) (rest : List Char) (hr : stopperOk rest = true) :
    parseNat (natChars n ++ rest) = .ok (n, rest) := by
  have hstop : ∀ c, rest.head? = some c → isDigitCh c = false :=
    fun c hc => (stopper_facts rest hr c hc).1
  obtain ⟨ht, hd⟩ := takeWhile_digits_stop (natChars n) (natChars_all_digits n) rest hstop
  have hlz : ¬((natChars n).length > 1 ∧ (natChars n).head? = some '0') := by
    rintro ⟨hlen, hhead⟩
    by_cases hn : n = 0
    · subst hn
      rw [show natChars 0 = ['0'] from rfl] at hlen
      simp at hlen
    · exact natChars_head_ne_zero n hn hhead
  simp only [parseNat, ht, hd]
  rw [if_neg (natChars_ne_nil n), if_neg hlz]
  cases rest with
  | nil => rw [digitsVal_natChars]
  | cons c t =>
    obtain ⟨-, hdot, he, hE⟩ := stopper_facts (c :: t) hr c (by rw [List.head?_cons])
    show (if c = '.' ∨ c = 'e' ∨ c = 'E' then Except.error ()
        else Except.ok (digitsVal (natChars n), c :: t)) = Except.ok (n, c :: t)
    rw [if_neg (by rintro (h | h | h) <;> [exact hdot h; exact he h; exact hE h]),
      digitsVal_natChars]

theorem parseNum_intChars (n : Int) (rest : List Char) (hr : stopperOk rest = true) :
    parseNum (intChars n ++ rest) = .ok (.pyint n, rest) := by
  by_cases hneg : n < 0
  · rw [intChars, if_pos hneg, List.cons_append]
    have hstep : parseNum ('-' :: (natChars n.natAbs ++ rest))
        = match parseNat (natChars n.natAbs ++ rest) with
          | .error e => .error e
          | .ok (m, r) => .ok (.pyint (-(m : Int)), r) := by
      simp [parseNum]
    rw [hstep, parseNat_natChars n.natAbs rest hr]
    show Except.ok (PyVal.pyint (-((n.natAbs : Nat) : Int)), rest) = _
    have harg : -((n.natAbs : Nat) : Int) = n := by omega
    rw [harg]
  · rw [intChars, if_neg hneg]
    obtain ⟨d, ds, hds⟩ : ∃ d ds, natChars n.natAbs = d :: ds := by
      cases hnc : natChars n.natAbs with
      | nil => exact absurd hnc (natChars_ne_nil _)
      | cons d ds => exact ⟨d, ds, rfl⟩
    have hd : isDigitCh d = true := by
      apply natChars_all_digits
      rw [hds]
      simp
    have hdash : ¬((natChars n.natAbs ++ rest).head? = some '-') := by
      rw [hds, List.cons_append, List.head?_cons]
      intro hcon
      rw [Option.some.injEq] at hcon
      subst hcon
      exact absurd hd (by decide)
    have hstep : parseNum (natChars n.natAbs ++ rest)
        = match parseNat (natChars n.natAbs ++ rest) with
          | .error e => .error e
          | .ok (m, r) => .ok (.pyint ((m : Nat) : Int), r) := by
      rw [parseNum, if_neg hdash]
    rw [hstep, parseNat_natChars n.natAbs rest hr]
    show Except.ok (PyVal.pyint ((n.natAbs : Nat) : Int), rest) = _
    have harg : ((n.natAbs : Nat) : Int) = n := by omega
    rw [harg]

theorem digitCh_facts {c : Char} (h : isDigitCh c = true) :
    c ≠ 'n' ∧ c ≠ 't' ∧ c ≠ 'f' ∧ c ≠ '"' ∧ c ≠ '[' ∧ c ≠ '{' ∧ isWsCh c = false ∧
      c ≠ ']' ∧ c ≠ '}' ∧ c ≠ ',' := by
  refine ⟨?_, ?_, ?_, ?_, ?_, ?_, ?_, ?_, ?_, ?_⟩
  · intro hc; subst hc; exact absurd h (by decide)
  · intro hc; subst hc; exact absurd h (by decide)
  · intro hc; subst hc; exact absurd h (by decide)
  · intro hc; subst hc; exact absurd h (by decide)
  · intro hc; subst hc; exact absurd h (by decide)
  · intro hc; subst hc; exact absurd h (by decide)
  · by_contra hw
    rw [Bool.not_eq_false, isWsCh] at hw
    simp only [decide_eq_true_eq] at hw
    rcases hw with hw | hw | hw | hw <;> subst hw <;> exact absurd h (by decide)
  · intro hc; subst hc; exact absurd h (by decide)
  · intro hc; subst hc; exact absurd h (by decide)
  · intro hc; subst hc; exact absurd h (by decide)

/-! ### The dump/load round trip -/

/-- The first character of printed output: never whitespace, never a
closing delimiter, never a comma. -/
def headOk (out : List Char) : Prop :=
  ∃ c t, out = c :: t ∧ isWsCh c = false ∧ c ≠ ']' ∧ c ≠ '}' ∧ c ≠ ','

theorem stopperOk_nlIndent (L : Nat) (cs : List Char) :
    stopperOk (nlIndent L ++ cs) = true := by
  rw [nlIndent, List.cons_append]
  rfl

theorem stopperOk_comma (cs : List Char) : stopperOk (',' :: cs) = true := rfl

theorem parseElems_ok (q : Nat) (cs : List Char) (acc : List PyVal) (v : PyVal)
    (r2 : List Char) (h : parseValue q cs = .ok (v, r2)) :
    parseElems (q+1) cs acc
      = if (skipWs r2).head? = some ',' then parseElems q (skipWs r2).tail (acc ++ [v])
        else if (skipWs r2).head? = some ']' then
          .ok (.pylist (PyList.ofList (acc ++ [v])), (skipWs r2).tail)
        else .error () := by
  simp only [parseElems, h]

theorem parseEntries_step (q : Nat) (r1 : List Char) (acc : List (PyKey × PyVal))
    (k : String) (r2 : List Char) (v : PyVal) (r4 : List Char)
    (hstr : parseStrF q [] r1 = .ok (k, r2))
    (hcol : (skipWs r2).head? = some ':')
    (hval : parseValue q (skipWs r2).tail = .ok (v, r4)) :
    parseEntries (q+1) ('"' :: r1) acc
      = if (skipWs r4).head? = some ',' then
          parseEntries q (skipWs r4).tail (acc ++ [(PyKey.kstr k, v)])
        else if (skipWs r4).head? = some '}' then
          .ok (.pydict (PyEntries.ofList (acc ++ [(PyKey.kstr k, v)])), (skipWs r4).tail)
        else .error () := by
  have hsk : skipWs ('"' :: r1) = '"' :: r1 := skipWs_cons_not _ (by decide)
  simp only [parseEntries, hsk, hstr, hval, if_pos hcol]

theorem json_master (N : Nat) :
    (∀ v lvl, GoodVal v → pySize v ≤ N →
      ∃ out, dumpV lvl v = .ok out ∧ headOk out ∧
        ∀ rest pf, stopperOk rest = true → 2 * out.length + 1 ≤ pf →
          parseValue pf (out ++ rest) = .ok (v, rest)) ∧
    (∀ xs lvl, GoodList xs → xs ≠ PyList.nil → pyListSize xs ≤ N →
      ∃ body, dumpL lvl xs = .ok body ∧ headOk body ∧
        ∀ acc L rest pf, 2 * body.length + 2 ≤ pf →
          parseElems pf (body ++ (nlIndent L ++ ']' :: rest)) acc
            = .ok (.pylist (PyList.ofList (acc ++ xs.toList)), rest)) ∧
    (∀ kvs lvl, GoodEntries kvs → kvs ≠ PyEntries.nil → pyEntriesSize kvs ≤ N →
      ∃ body, dumpE lvl kvs = .ok body ∧ headOk body ∧
        ∀ acc L rest pf, 2 * body.length + 2 ≤ pf →
          parseEntries pf (body ++ (nlIndent L ++ '}' :: rest)) acc
            = .ok (.pydict (PyEntries.ofList (acc ++ kvs.toList)), rest)) := by
  induction N using Nat.strongRecOn with
  | _ N IH =>
    refine ⟨?_, ?_, ?_⟩
    · intro v lvl hg hsz
      cases v with
      | pynull =>
        refine ⟨"null".data, rfl, ⟨'n', _, rfl, by decide, by decide, by decide, by decide⟩,
          ?_⟩
        intro rest pf hstop hpf
        obtain ⟨q, rfl⟩ : ∃ q, pf = q + 1 := ⟨pf - 1, by omega⟩
        show parseValue (q+1) ('n' :: 'u' :: 'l' :: 'l' :: rest) = _
        simp [parseValue, skipWs, isWsCh]
      | pybool b =>
        cases b with
        | true =>
          refine ⟨"true".data, rfl,
            ⟨'t', _, rfl, by decide, by decide, by decide, by decide⟩, ?_⟩
          intro rest pf hstop hpf
          obtain ⟨q, rfl⟩ : ∃ q, pf = q + 1 := ⟨pf - 1, by omega⟩
          show parseValue (q+1) ('t' :: 'r' :: 'u' :: 'e' :: rest) = _
          simp [parseValue, skipWs, isWsCh]
        | false =>
          refine ⟨"false".data, rfl,
            ⟨'f', _, rfl, by decide, by decide, by decide, by decide⟩, ?_⟩
          intro rest pf hstop hpf
          obtain ⟨q, rfl⟩ : ∃ q, pf = q + 1 := ⟨pf - 1, by omega⟩
          show parseValue (q+1) ('f' :: 'a' :: 'l' :: 's' :: 'e' :: rest) = _
          simp [parseValue, skipWs, isWsCh]
      | pyint n =>
        refine ⟨intChars n, rfl, ?_, ?_⟩
        · by_cases hneg : n < 0
          · exact ⟨'-', natChars n.natAbs, by rw [intChars, if_pos hneg], by decide,
              by decide, by decide, by decide⟩
          · obtain ⟨d, ds, hds⟩ : ∃ d ds, natChars n.natAbs = d :: ds := by
              cases hnc : natChars n.natAbs with
              | nil => exact absurd hnc (natChars_ne_nil _)
              | cons d ds => exact ⟨d, ds, rfl⟩
            have hd : isDigitCh d = true := by
              apply natChars_all_digits
              rw [hds]
              simp
            obtain ⟨-, -, -, -, -, -, h7, h8, h9, h10⟩ := digitCh_facts hd
            exact ⟨d, ds, by rw [intChars, if_neg hneg, hds], h7, h8, h9, h10⟩
        · intro rest pf hstop hpf
          obtain ⟨q, rfl⟩ : ∃ q, pf = q + 1 := ⟨pf - 1, by omega⟩
          by_cases hneg : n < 0
          · have hic : intChars n = '-' :: natChars n.natAbs := by
              rw [intChars, if_pos hneg]
            rw [hic, List.cons_append]
            have hsk : skipWs ('-' :: (natChars n.natAbs ++ rest))
                = '-' :: (natChars n.natAbs ++ rest) := skipWs_cons_not _ (by decide)
            have hnum : parseNum ('-' :: (natChars n.natAbs ++ rest))
                = Except.ok (PyVal.pyint n, rest) := by
              rw [← List.cons_append, ← hic]
              exact parseNum_intChars n rest hstop
            simp [parseValue, hsk, hnum]
          · have hic : intChars n = natChars n.natAbs := by
              rw [intChars, if_neg hneg]
            obtain ⟨d, ds, hds⟩ : ∃ d ds, natChars n.natAbs = d :: ds := by
              cases hnc : natChars n.natAbs with
              | nil => exact absurd hnc (natChars_ne_nil _)
              | cons d ds => exact ⟨d, ds, rfl⟩
            have hd : isDigitCh d = true := by
              apply natChars_all_digits
              rw [hds]
              simp
            obtain ⟨h1, h2, h3, h4, h5, h6, h7, -, -, -⟩ := digitCh_facts hd
            rw [hic, hds, List.cons_append]
            have hsk : skipWs (d :: (ds ++ rest)) = d :: (ds ++ rest) :=
              skipWs_cons_not _ h7
            have hnum : parseNum (d :: (ds ++ rest)) = Except.ok (PyVal.pyint n, rest) := by
              rw [← List.cons_append, ← hds, ← hic]
              exact parseNum_intChars n rest hstop
            simp only [parseValue, hsk]
            rw [if_neg h1, if_neg h2, if_neg h3, if_neg h4, if_neg h5, if_neg h6,
              if_pos (Or.inr hd), hnum]
      | pystr s =>
        refine ⟨quoteAscii s.data, rfl, ⟨'"', s.data.flatMap escChar ++ ['"'],
          by rw [quoteAscii, List.cons_append], by decide, by decide, by decide,
          by decide⟩, ?_⟩
        intro rest pf hstop hpf
        obtain ⟨q, rfl⟩ : ∃ q, pf = q + 1 := ⟨pf - 1, by omega⟩
        rw [quoteAscii_append]
        have hsk : skipWs ('"' :: (s.data.flatMap escChar ++ '"' :: rest))
            = '"' :: (s.data.flatMap escChar ++ '"' :: rest) := skipWs_cons_not _ (by decide)
        have hfq : s.data.length + 1 ≤ q := by
          have hlen := flatMap_escChar_length s.data
          have houtlen : (quoteAscii s.data).length
              = (s.data.flatMap escChar).length + 2 := by
            rw [quoteAscii]
            simp
          omega
        have hstr := parseStr_quote s q rest hfq
        simp [parseValue, hsk, hstr]
      | pyobject oid => cases hg
      | pylist xs =>
        cases xs with
        | nil =>
          refine ⟨['[', ']'], rfl, ⟨'[', [']'], rfl, by decide, by decide, by decide,
            by decide⟩, ?_⟩
          intro rest pf hstop hpf
          obtain ⟨q, rfl⟩ : ∃ q, pf = q + 1 := ⟨pf - 1, by omega⟩
          show parseValue (q+1) ('[' :: ']' :: rest) = _
          have hsk : skipWs ('[' :: ']' :: rest) = '[' :: ']' :: rest :=
            skipWs_cons_not _ (by decide)
          have hsk2 : skipWs (']' :: rest) = ']' :: rest := skipWs_cons_not _ (by decide)
          simp [parseValue, hsk, hsk2]
        | cons x xs' =>
          have hl : GoodList (PyList.cons x xs') := by
            cases hg with | list _ hl => exact hl
          have hszl : pyListSize (PyList.cons x xs') < N := by
            have hq : pySize (PyVal.pylist (PyList.cons x xs'))
                = 1 + pyListSize (PyList.cons x xs') := by
              simp [pySize]
            omega
          obtain ⟨body, hbody, ⟨bc, bt, hbct, hbw, hbr, hbb, hbcm⟩, hparse⟩ :=
            (IH (pyListSize (PyList.cons x xs')) hszl).2.1 (PyList.cons x xs') (lvl+1) hl
              (by simp) le_rfl
          refine ⟨'[' :: nlIndent (lvl+1) ++ body ++ nlIndent lvl ++ [']'],
            by simp only [dumpV, hbody], ⟨'[',
              nlIndent (lvl+1) ++ body ++ nlIndent lvl ++ [']'], by simp, by decide,
              by decide, by decide, by decide⟩, ?_⟩
          intro rest pf hstop hpf
          obtain ⟨q, rfl⟩ : ∃ q, pf = q + 1 := ⟨pf - 1, by omega⟩
          have hshape : ('[' :: nlIndent (lvl+1) ++ body ++ nlIndent lvl ++ [']']) ++ rest
              = '[' :: (nlIndent (lvl+1) ++ (body ++ (nlIndent lvl ++ ']' :: rest))) := by
            simp [List.append_assoc]
          rw [hshape]
          have hsk : skipWs ('[' :: (nlIndent (lvl+1) ++ (body ++ (nlIndent lvl ++
              ']' :: rest)))) = '[' :: (nlIndent (lvl+1) ++ (body ++ (nlIndent lvl ++
              ']' :: rest))) := skipWs_cons_not _ (by decide)
          have hsk2 : skipWs (nlIndent (lvl+1) ++ (body ++ (nlIndent lvl ++ ']' :: rest)))
              = body ++ (nlIndent lvl ++ ']' :: rest) := by
            rw [skipWs_nlIndent, hbct, List.cons_append, skipWs_cons_not _ hbw,
              ← List.cons_append, ← hbct]
          have hhd : (body ++ (nlIndent lvl ++ ']' :: rest)).head? ≠ some ']' := by
            rw [hbct, List.cons_append, List.head?_cons]
            intro hcon
            rw [Option.some.injEq] at hcon
            exact hbr hcon
          have hfl : 2 * body.length + 2 ≤ q := by
            have hn1 := nlIndent_length_pos (lvl+1)
            have hn0 := nlIndent_length_pos lvl
            have hlq : ('[' :: nlIndent (lvl+1) ++ body ++ nlIndent lvl ++ [']']).length
                = 1 + (nlIndent (lvl+1)).length + body.length + (nlIndent lvl).length
                  + 1 := by
              simp
              omega
            omega
          have hpe := hparse [] lvl rest q hfl
          rw [List.nil_append, pyList_ofList_toList] at hpe
          simp [parseValue, hsk, hsk2, hpe]
          constructor
          · rw [hbct, List.head?_cons]
            intro hcon
            rw [Option.some.injEq] at hcon
            exact hbr hcon
          · intro hb
            rw [hbct] at hb
            exact absurd hb (by simp)
      | pydict kvs =>
        cases kvs with
        | nil =>
          refine ⟨['{', '}'], rfl, ⟨'{', ['}'], rfl, by decide, by decide, by decide,
            by decide⟩, ?_⟩
          intro rest pf hstop hpf
          obtain ⟨q, rfl⟩ : ∃ q, pf = q + 1 := ⟨pf - 1, by omega⟩
          show parseValue (q+1) ('{' :: '}' :: rest) = _
          have hsk : skipWs ('{' :: '}' :: rest) = '{' :: '}' :: rest :=
            skipWs_cons_not _ (by decide)
          have hsk2 : skipWs ('}' :: rest) = '}' :: rest := skipWs_cons_not _ (by decide)
          simp [parseValue, hsk, hsk2]
        | cons k v kvs' =>
          have he : GoodEntries (PyEntries.cons k v kvs') := by
            cases hg with | dict _ he _ => exact he
          have hsze : pyEntriesSize (PyEntries.cons k v kvs') < N := by
            have hq : pySize (PyVal.pydict (PyEntries.cons k v kvs'))
                = 1 + pyEntriesSize (PyEntries.cons k v kvs') := by
              simp [pySize]
            omega
          obtain ⟨body, hbody, ⟨bc, bt, hbct, hbw, hbr, hbb, hbcm⟩, hparse⟩ :=
            (IH (pyEntriesSize (PyEntries.cons k v kvs')) hsze).2.2
              (PyEntries.cons k v kvs') (lvl+1) he (by simp) le_rfl
          refine ⟨'{' :: nlIndent (lvl+1) ++ body ++ nlIndent lvl ++ ['}'],
            by simp only [dumpV, hbody], ⟨'{',
              nlIndent (lvl+1) ++ body ++ nlIndent lvl ++ ['}'], by simp, by decide,
              by decide, by decide, by decide⟩, ?_⟩
          intro rest pf hstop hpf
          obtain ⟨q, rfl⟩ : ∃ q, pf = q + 1 := ⟨pf - 1, by omega⟩
          have hshape : ('{' :: nlIndent (lvl+1) ++ body ++ nlIndent lvl ++ ['}']) ++ rest
              = '{' :: (nlIndent (lvl+1) ++ (body ++ (nlIndent lvl ++ '}' :: rest))) := by
            simp [List.append_assoc]
          rw [hshape]
          have hsk : skipWs ('{' :: (nlIndent (lvl+1) ++ (body ++ (nlIndent lvl ++
              '}' :: rest)))) = '{' :: (nlIndent (lvl+1) ++ (body ++ (nlIndent lvl ++
              '}' :: rest))) := skipWs_cons_not _ (by decide)
          have hsk2 : skipWs (nlIndent (lvl+1) ++ (body ++ (nlIndent lvl ++ '}' :: rest)))
              = body ++ (nlIndent lvl ++ '}' :: rest) := by
            rw [skipWs_nlIndent, hbct, List.cons_append, skipWs_cons_not _ hbw,
              ← List.cons_append, ← hbct]
          have hhd : (body ++ (nlIndent lvl ++ '}' :: rest)).head? ≠ some '}' := by
            rw [hbct, List.cons_append, List.head?_cons]
            intro hcon
            rw [Option.some.injEq] at hcon
            exact hbb hcon
          have hfl : 2 * body.length + 2 ≤ q := by
            have hn1 := nlIndent_length_pos (lvl+1)
            have hn0 := nlIndent_length_pos lvl
            have hlq : ('{' :: nlIndent (lvl+1) ++ body ++ nlIndent lvl ++ ['}']).length
                = 1 + (nlIndent (lvl+1)).length + body.length + (nlIndent lvl).length
                  + 1 := by
              simp
              omega
            omega
          have hpe := hparse [] lvl rest q hfl
          rw [List.nil_append, pyEntries_ofList_toList] at hpe
          simp [parseValue, hsk, hsk2, hpe]
          constructor
          · rw [hbct, List.head?_cons]
            intro hcon
            rw [Option.some.injEq] at hcon
            exact hbb hcon
          · intro hb
            rw [hbct] at hb
            exact absurd hb (by simp)
    · intro xs lvl hgl hne hsz
      cases xs with
      | nil => exact absurd rfl hne
      | cons x xs' =>
        have hx : GoodVal x := by cases hgl with | cons _ _ hx _ => exact hx
        have hxs : GoodList xs' := by cases hgl with | cons _ _ _ hxs => exact hxs
        have hsx : pySize x < N := by
          have h1 : pyListSize (PyList.cons x xs') = 1 + pySize x + pyListSize xs' := by
            simp [pyListSize]
          have h2 := pyListSize_pos xs'
          omega
        obtain ⟨o, hdo, ⟨oc, ot, hoct, how, hor, hob, hocm⟩, hparseo⟩ :=
          (IH (pySize x) hsx).1 x lvl hx le_rfl
        cases xs' with
        | nil =>
          refine ⟨o, by rw [show dumpL lvl (PyList.cons x PyList.nil) = dumpV lvl x
              from rfl, hdo], ⟨oc, ot, hoct, how, hor, hob, hocm⟩, ?_⟩
          intro acc L rest pf hpf
          obtain ⟨q, rfl⟩ : ∃ q, pf = q + 1 := ⟨pf - 1, by omega⟩
          rw [parseElems_ok q _ acc x _ (hparseo (nlIndent L ++ ']' :: rest) q
            (stopperOk_nlIndent L _) (by omega))]
          have hr2 : skipWs (nlIndent L ++ ']' :: rest) = ']' :: rest := by
            rw [skipWs_nlIndent, skipWs_cons_not _ (by decide)]
          rw [hr2, List.head?_cons, if_neg (by simp), if_pos rfl, List.tail_cons]
          rfl
        | cons y ys =>
          have hgl' : GoodList (PyList.cons y ys) := hxs
          have hszl' : pyListSize (PyList.cons y ys) < N := by
            have h1 : pyListSize (PyList.cons x (PyList.cons y ys))
                = 1 + pySize x + pyListSize (PyList.cons y ys) := by
              simp [pyListSize]
            have h2 := pySize_pos x
            omega
          obtain ⟨body2, hdb, ⟨b2c, b2t, hb2ct, hb2w, hb2r, hb2b, hb2cm⟩, hparseb⟩ :=
            (IH (pyListSize (PyList.cons y ys)) hszl').2.1 (PyList.cons y ys) lvl hgl'
              (by simp) le_rfl
          refine ⟨o ++ ',' :: nlIndent lvl ++ body2,
            by simp only [dumpL, hdo, hdb], ?_, ?_⟩
          · refine ⟨oc, ot ++ ',' :: nlIndent lvl ++ body2, ?_, how, hor, hob, hocm⟩
            rw [hoct]
            simp [List.append_assoc]
          intro acc L rest pf hpf
          obtain ⟨q, rfl⟩ : ∃ q, pf = q + 1 := ⟨pf - 1, by omega⟩
          have hlen : (o ++ ',' :: nlIndent lvl ++ body2).length
              = o.length + 1 + (nlIndent lvl).length + body2.length := by
            simp
            omega
          have hshape : (o ++ ',' :: nlIndent lvl ++ body2) ++ (nlIndent L ++ ']' :: rest)
              = o ++ (',' :: (nlIndent lvl ++ (body2 ++ (nlIndent L ++ ']' :: rest)))) := by
            simp [List.append_assoc]
          rw [hshape]
          rw [parseElems_ok q _ acc x _ (hparseo (',' :: (nlIndent lvl ++ (body2 ++
            (nlIndent L ++ ']' :: rest)))) q (stopperOk_comma _) (by omega))]
          have hr2 : skipWs (',' :: (nlIndent lvl ++ (body2 ++ (nlIndent L ++
              ']' :: rest)))) = ',' :: (nlIndent lvl ++ (body2 ++ (nlIndent L ++
              ']' :: rest))) := skipWs_cons_not _ (by decide)
          rw [hr2, List.head?_cons, if_pos rfl, List.tail_cons]
          rw [parseElems_congr q _ (body2 ++ (nlIndent L ++ ']' :: rest)) (acc ++ [x])
            (by rw [skipWs_nlIndent])]
          have hn0 := nlIndent_length_pos lvl
          rw [hparseb (acc ++ [x]) L rest q (by omega)]
          have hlist : (acc ++ [x]) ++ (PyList.cons y ys).toList
              = acc ++ (PyList.cons x (PyList.cons y ys)).toList := by
            rw [List.append_assoc]
            rfl
          rw [hlist]
    · intro kvs lvl hge hne hsz
      cases kvs with
      | nil => exact absurd rfl hne
      | cons k v kvs' =>
        obtain ⟨s, hv, hks, hkvs⟩ :
            ∃ s, GoodVal v ∧ k = PyKey.kstr s ∧ GoodEntries kvs' := by
          cases hge with | cons s v kvs hv hkvs => exact ⟨s, hv, rfl, hkvs⟩
        subst hks
        have hsv : pySize v < N := by
          have h1 : pyEntriesSize (PyEntries.cons (PyKey.kstr s) v kvs')
              = 1 + pySize v + pyEntriesSize kvs' := by
            simp [pyEntriesSize]
          have h2 := pyEntriesSize_pos kvs'
          omega
        obtain ⟨o, hdo, ⟨oc, ot, hoct, how, hor, hob, hocm⟩, hparseo⟩ :=
          (IH (pySize v) hsv).1 v lvl hv le_rfl
        have hkey : keyChars (PyKey.kstr s) = s.data := rfl
        have hfq : ∀ q : Nat, 2 * (quoteAscii s.data).length ≤ q →
            s.data.length + 1 ≤ q := by
          intro q hq
          have hlen := flatMap_escChar_length s.data
          have houtlen : (quoteAscii s.data).length
              = (s.data.flatMap escChar).length + 2 := by
            rw [quoteAscii]
            simp
          omega
        cases kvs' with
        | nil =>
          refine ⟨quoteAscii s.data ++ ':' :: ' ' :: o,
            by simp only [dumpE, hdo, hkey], ⟨'"',
              s.data.flatMap escChar ++ ['"'] ++ ':' :: ' ' :: o,
              by rw [quoteAscii]; simp [List.append_assoc], by decide, by decide,
              by decide, by decide⟩, ?_⟩
          intro acc L rest pf hpf
          obtain ⟨q, rfl⟩ : ∃ q, pf = q + 1 := ⟨pf - 1, by omega⟩
          have hlenq : (quoteAscii s.data ++ ':' :: ' ' :: o).length
              = (quoteAscii s.data).length + 2 + o.length := by
            simp
            omega
          have hshape : (quoteAscii s.data ++ ':' :: ' ' :: o) ++ (nlIndent L ++
              '}' :: rest)
              = '"' :: (s.data.flatMap escChar ++ '"' :: (':' :: ' ' :: (o ++
                  (nlIndent L ++ '}' :: rest)))) := by
            rw [quoteAscii]
            simp [List.append_assoc]
          rw [hshape]
          have hr2eq : skipWs (':' :: ' ' :: (o ++ (nlIndent L ++ '}' :: rest)))
              = ':' :: ' ' :: (o ++ (nlIndent L ++ '}' :: rest)) :=
            skipWs_cons_not _ (by decide)
          have hcol : (skipWs (':' :: ' ' :: (o ++ (nlIndent L ++ '}' :: rest)))).head?
              = some ':' := by
            rw [hr2eq, List.head?_cons]
          have hval : parseValue q
              (skipWs (':' :: ' ' :: (o ++ (nlIndent L ++ '}' :: rest)))).tail
              = .ok (v, nlIndent L ++ '}' :: rest) := by
            rw [hr2eq, List.tail_cons]
            rw [parseValue_congr q _ (o ++ (nlIndent L ++ '}' :: rest))
              (by rw [skipWs_cons_ws _ (by decide)])]
            exact hparseo (nlIndent L ++ '}' :: rest) q (stopperOk_nlIndent L _) (by omega)
          rw [parseEntries_step q _ acc s _ v _
            (parseStr_quote s q _ (hfq q (by omega))) hcol hval]
          have hr5 : skipWs (nlIndent L ++ '}' :: rest) = '}' :: rest := by
            rw [skipWs_nlIndent, skipWs_cons_not _ (by decide)]
          rw [hr5, List.head?_cons, if_neg (by simp), if_pos rfl, List.tail_cons]
          rfl
        | cons k2 v2 kvs2 =>
          have hge' : GoodEntries (PyEntries.cons k2 v2 kvs2) := hkvs
          have hsze' : pyEntriesSize (PyEntries.cons k2 v2 kvs2) < N := by
            have h1 : pyEntriesSize (PyEntries.cons (PyKey.kstr s) v
                (PyEntries.cons k2 v2 kvs2))
                = 1 + pySize v + pyEntriesSize (PyEntries.cons k2 v2 kvs2) := by
              simp [pyEntriesSize]
            have h2 := pySize_pos v
            omega
          obtain ⟨body2, hdb, ⟨b2c, b2t, hb2ct, hb2w, hb2r, hb2b, hb2cm⟩, hparseb⟩ :=
            (IH (pyEntriesSize (PyEntries.cons k2 v2 kvs2)) hsze').2.2
              (PyEntries.cons k2 v2 kvs2) lvl hge' (by simp) le_rfl
          refine ⟨quoteAscii s.data ++ ':' :: ' ' :: o ++ ',' :: nlIndent lvl ++ body2,
            by simp only [dumpE, hdo, hdb, hkey], ⟨'"',
              s.data.flatMap escChar ++ ['"'] ++ ':' :: ' ' :: o ++ ',' :: nlIndent lvl
                ++ body2,
              by rw [quoteAscii]; simp [List.append_assoc], by decide, by decide,
              by decide, by decide⟩, ?_⟩
          intro acc L rest pf hpf
          obtain ⟨q, rfl⟩ : ∃ q, pf = q + 1 := ⟨pf - 1, by omega⟩
          have hlen : (quoteAscii s.data ++ ':' :: ' ' :: o ++ ',' :: nlIndent lvl ++
              body2).length
              = (quoteAscii s.data).length + 2 + o.length + 1 + (nlIndent lvl).length
                + body2.length := by
            simp
            omega
          have hshape : (quoteAscii s.data ++ ':' :: ' ' :: o ++ ',' :: nlIndent lvl ++
              body2) ++ (nlIndent L ++ '}' :: rest)
              = '"' :: (s.data.flatMap escChar ++ '"' :: (':' :: ' ' :: (o ++
                  (',' :: (nlIndent lvl ++ (body2 ++ (nlIndent L ++ '}' :: rest))))))) := by
            rw [quoteAscii]
            simp [List.append_assoc]
          rw [hshape]
          have hr2eq : skipWs (':' :: ' ' :: (o ++ (',' :: (nlIndent lvl ++ (body2 ++
              (nlIndent L ++ '}' :: rest))))))
              = ':' :: ' ' :: (o ++ (',' :: (nlIndent lvl ++ (body2 ++ (nlIndent L ++
                  '}' :: rest))))) := skipWs_cons_not _ (by decide)
          have hcol : (skipWs (':' :: ' ' :: (o ++ (',' :: (nlIndent lvl ++ (body2 ++
              (nlIndent L ++ '}' :: rest))))))).head? = some ':' := by
            rw [hr2eq, List.head?_cons]
          have hval : parseValue q (skipWs (':' :: ' ' :: (o ++ (',' :: (nlIndent lvl ++
              (body2 ++ (nlIndent L ++ '}' :: rest))))))).tail
              = .ok (v, ',' :: (nlIndent lvl ++ (body2 ++ (nlIndent L ++
                  '}' :: rest)))) := by
            rw [hr2eq, List.tail_cons]
            rw [parseValue_congr q _ (o ++ (',' :: (nlIndent lvl ++ (body2 ++
              (nlIndent L ++ '}' :: rest))))) (by rw [skipWs_cons_ws _ (by decide)])]
            exact hparseo (',' :: (nlIndent lvl ++ (body2 ++ (nlIndent L ++
              '}' :: rest)))) q (stopperOk_comma _) (by omega)
          rw [parseEntries_step q _ acc s _ v _
            (parseStr_quote s q _ (hfq q (by omega))) hcol hval]
          have hr5 : skipWs (',' :: (nlIndent lvl ++ (body2 ++ (nlIndent L ++
              '}' :: rest))))
              = ',' :: (nlIndent lvl ++ (body2 ++ (nlIndent L ++ '}' :: rest))) :=
            skipWs_cons_not _ (by decide)
          rw [hr5, List.head?_cons, if_pos rfl, List.tail_cons]
          rw [parseEntries_congr q _ (body2 ++ (nlIndent L ++ '}' :: rest))
            (acc ++ [(PyKey.kstr s, v)]) (by rw [skipWs_nlIndent])]
          have hn0 := nlIndent_length_pos lvl
          rw [hparseb (acc ++ [(PyKey.kstr s, v)]) L rest q (by omega)]
          have hlist : (acc ++ [(PyKey.kstr s, v)]) ++ (PyEntries.cons k2 v2 kvs2).toList
              = acc ++ (PyEntries.cons (PyKey.kstr s) v
                  (PyEntries.cons k2 v2 kvs2)).toList := by
            rw [List.append_assoc]
            rfl
          rw [hlist]

theorem pyDump_pyLoad (v : PyVal) (h : GoodVal v) :
    ∃ out, pyDump v = .ok out ∧ pyLoad out = .ok v := by
  obtain ⟨out, hdump, -, hparse⟩ := (json_master (pySize v)).1 v 0 h le_rfl
  refine ⟨out, hdump, ?_⟩
  have hp := hparse [] (2 * out.length + 2) rfl (by omega)
  rw [List.append_nil] at hp
  rw [pyLoad, hp]
  rfl

/-- **C3, counterexample.**  The state `{1: 'a'}` is JSON-serializable:
`json.dump` coerces the int key to the string `"1"`, so `set_state`
succeeds and writes `{"1": "a"}`.  `get_state` then parses it back with a
string key: the returned dictionary is `{'1': 'a'}`, not the original
`{1: 'a'}`, so the write/read round trip fails even with no intervening
file-system failure. -/
theorem c3_roundtrip_counterexample :
    Storage.set_state true (.pydict (.cons (.kint 1) (.pystr "a") .nil))
      = .ret (some "\x7b\n  \"1\": \"a\"\n\x7d".data) ∧
    Storage.get_state (.content "\x7b\n  \"1\": \"a\"\n\x7d".data)
      = .ret (.pydict (.cons (.kstr "1") (.pystr "a") .nil)) ∧
    ¬ (PyVal.pydict (.cons (.kstr "1") (.pystr "a") .nil)
        = .pydict (.cons (.kint 1) (.pystr "a") .nil)) := by
  exact ⟨by decide, by decide, by decide⟩

/-- **C3 (amended).**  For every state all of whose dicts have distinct
*string* keys and which holds no unserializable object (`GoodVal`),
`set_state` succeeds and writes the `json.dump(..., indent=2)` text, and
`get_state` on that text returns exactly the original state: the JSON
preferences blob round-trips through write and read.  (The claim fails
only for non-string keys, which `json.dump` silently coerces: see the
counterexample.) -/
theorem c3_amended_roundtrip (state : PyVal) (h : GoodVal state) :
    ∃ out, Storage.set_state true state = .ret (some out) ∧
      Storage.get_state (.content out) = .ret state := by
  obtain ⟨out, hdump, hload⟩ := pyDump_pyLoad state h
  have hw : JSONStorage.write true state = .ok out := by
    rw [JSONStorage.write, if_pos rfl]
    exact hdump
  refine ⟨out, ?_, ?_⟩
  · simp only [Storage.set_state, hw]
  · simp only [Storage.get_state, JSONStorage.read, hload]

/-- Witness for the amended C3 theorem: the state
`{'a': 1, 'b': 'x\y'}` (a backslash in the value exercises the string
escaping) round-trips. -/
theorem c3_amended_witness :
    ∃ out, Storage.set_state true (PyVal.pydict (.cons (.kstr "a") (.pyint 1)
        (.cons (.kstr "b") (.pystr "x\\y") .nil))) = .ret (some out) ∧
      Storage.get_state (.content out) = .ret (.pydict (.cons (.kstr "a") (.pyint 1)
        (.cons (.kstr "b") (.pystr "x\\y") .nil))) :=
  c3_amended_roundtrip _
    (GoodVal.dict _ (GoodEntries.cons "a" _ _ (GoodVal.int 1)
      (GoodEntries.cons "b" _ _ (GoodVal.str "x\\y") GoodEntries.nil))
      (by decide))

/-- **C4, counterexample.**  `Storage.set_state` catches only `OSError`
and `ValueError`; `json.dump` raises `TypeError` on an unserializable
value inside the state (a set, a Qt object, ...), and that `TypeError`
propagates to the caller. -/
theorem c4_set_state_typeerror_counterexample :
    Storage.set_state true (.pydict (.cons (.kstr "a") (.pyobject 0) .nil))
      = .raised .typeError := by
  decide

/-- **C4 (amended).**  `Storage.get_state` never raises: it returns the
parsed state, and the empty dict whenever the file is missing/unreadable
(`OSError`) or not valid JSON (`json.JSONDecodeError`).  `Storage.set_state`
swallows `OSError` (file-system failure) and `ValueError`, and succeeds on
every state `json.dump` can serialize — but a `TypeError` from `json.dump`
propagates, so the claim's "never propagate an exception for any input"
is wrong for `set_state` (see the counterexample). -/
theorem c4_amended_storage_error_handling :
    (∀ ro : ReadOutcome, ∃ v, Storage.get_state ro = .ret v) ∧
    (Storage.get_state .missing = .ret (.pydict .nil)) ∧
    (∀ cs, pyLoad cs = .error () →
      Storage.get_state (.content cs) = .ret (.pydict .nil)) ∧
    (∀ state, Storage.set_state false state = .ret none) ∧
    (∀ state out, pyDump state = .ok out →
      Storage.set_state true state = .ret (some out)) ∧
    (∀ state, pyDump state = .error .typeError →
      Storage.set_state true state = .raised .typeError) := by
  refine ⟨?_, rfl, ?_, ?_, ?_, ?_⟩
  · intro ro
    cases ro with
    | missing => exact ⟨.pydict .nil, rfl⟩
    | content cs =>
      cases h : pyLoad cs with
      | ok v => exact ⟨v, by simp only [Storage.get_state, JSONStorage.read, h]⟩
      | error e => exact ⟨.pydict .nil, by simp only [Storage.get_state,
          JSONStorage.read, h]⟩
  · intro cs h
    simp only [Storage.get_state, JSONStorage.read, h]
  · intro state
    rfl
  · intro state out h
    have hw : JSONStorage.write true state = .ok out := by
      rw [JSONStorage.write, if_pos rfl]
      exact h
    simp only [Storage.set_state, hw]
  · intro state h
    have hw : JSONStorage.write true state = .error .typeError := by
      rw [JSONStorage.write, if_pos rfl]
      exact h
    simp only [Storage.set_state, hw]

/-- Witness for the amended C4 theorem: a file holding `not json` yields
the empty dict, the empty dict serializes and is written, and a state
holding an unserializable object raises `TypeError`. -/
theorem c4_amended_witness :
    (pyLoad "not json".data = .error () ∧
      Storage.get_state (.content "not json".data) = .ret (.pydict .nil)) ∧
    (pyDump (.pydict .nil) = .ok ['{', '}'] ∧
      Storage.set_state true (.pydict .nil) = .ret (some ['{', '}'])) ∧
    (pyDump (.pylist (.cons (.pyobject 7) .nil)) = .error .typeError ∧
      Storage.set_state true (.pylist (.cons (.pyobject 7) .nil))
        = .raised .typeError) := by
  refine ⟨⟨by decide, ?_⟩, ⟨by decide, ?_⟩, ⟨by decide, ?_⟩⟩
  · exact c4_amended_storage_error_handling.2.2.1 _ (by decide)
  · exact c4_amended_storage_error_handling.2.2.2.2.1 _ _ (by decide)
  · exact c4_amended_storage_error_handling.2.2.2.2.2 _ (by decide)

/-- Witness for the amended C7 theorem: the empty cache is faithful, and a
first call on path `p` over an empty file system returns the uncached
result while leaving a faithful cache. -/
theorem c7_amended_witness :
    cacheWF (fun s => s) [] ([] : List (String × List (Int × String))) ∧
    ((getVersionsCached (fun s => s) [] [] "p").1
        = getVersionsPure (fun s => s) [] "p" ∧
      cacheWF (fun s => s) [] (getVersionsCached (fun s => s) [] [] "p").2 ∧
      getVersionsCached (fun s => s) [] (getVersionsCached (fun s => s) [] [] "p").2 "p"
        = ((getVersionsCached (fun s => s) [] [] "p").1,
            (getVersionsCached (fun s => s) [] [] "p").2)) := by
  have hwf : cacheWF (fun s => s) [] ([] : List (String × List (Int × String))) :=
    fun p v h => absurd h (List.not_mem_nil _)
  exact ⟨hwf, c7_amended_cached_versions_deterministic (fun s => s) [] [] "p" hwf⟩

end PathManager
